import Mathlib

/-!
UART framer and MQTT session supervisor of the ESP32 bridge.

Shallow embedding of `handleUART`, `reconnectMQTT` and the session part of
`loop` from `src/ESP UART Reciever and MQTT Pub/src/main.cpp`.

The header `config.h` is not part of the sources, so the macros
`UART_BUFFER_SIZE`, `UART_TERMINATOR` and `MQTT_RECONNECT_DELAY` are
parameters of the definitions below.  Machine integers are natural numbers
with explicit reduction: `uartRxIndex` is a `uint16_t` (modulo `65536`),
`messageCounter`, `lastMqttReconnect` and `millis()` are 32-bit
(modulo `4294967296`).
-/

namespace Bridge

/-- One octet, the `uint8_t` read from `Serial2`. -/
abbrev Byte := Fin 256

/-- Carriage return, the character literal written `\r` in the source. -/
def CR : Byte := 13

/-- Line feed, the character literal written `\n` in the source. -/
def LF : Byte := 10

/-- The string terminator written at line 72. -/
def NUL : Byte := 0

/-- Number of values of the `uint16_t` write cursor. -/
def UINT16_MOD : Nat := 65536

/-- Number of values of a `uint32_t`. -/
def UINT32_MOD : Nat := 4294967296

/-- The condition of the strip loop at line 69 on one buffer byte. -/
def isCRLF (b : Byte) : Bool := b == CR || b == LF

/-- The globals `uartRxBuffer`, `uartRxIndex` and `messageCounter`
(lines 11 to 13). -/
structure FramerState where
  uartRxBuffer : List Byte
  uartRxIndex : Nat
  messageCounter : Nat
deriving DecidableEq, Repr

/-- The state after static initialisation: a zeroed buffer of
`UART_BUFFER_SIZE` bytes, cursor `0`, counter `0`. -/
def initState (UART_BUFFER_SIZE : Nat) : FramerState :=
  { uartRxBuffer := List.replicate UART_BUFFER_SIZE NUL
    uartRxIndex := 0
    messageCounter := 0 }

/-- Answers of the two status polls of line 86, as they would be given at
the moment a frame completes: `WiFi.status() == WL_CONNECTED` and
`mqttClient.connected()`. -/
structure Poll where
  wifiConnected : Bool
  mqttConnected : Bool
deriving DecidableEq, Repr

/-- A completed frame.  `raw` is the accumulated buffer prefix
`uartRxBuffer[0 .. uartRxIndex)` when the test of line 67 succeeds, before
the strip loop; `content` is the prefix before the null terminator written
at line 72; `sequence` is `messageCounter` after the increment of line 74. -/
structure Frame where
  raw : List Byte
  content : List Byte
  sequence : Nat
deriving DecidableEq, Repr

/-- The arguments of one `mqttClient.publish` call that come from the
framer: the message read from the buffer as a C string (line 81) and the
sequence number (line 83). -/
structure Envelope where
  message : List Byte
  sequence : Nat
deriving DecidableEq, Repr

/-- The strip loop of lines 69 to 71, started with cursor `i`: the cursor
is decremented while it is positive and the byte before it is CR or LF. -/
def stripIndex (buf : List Byte) : Nat → Nat
  | 0 => 0
  | i + 1 => if isCRLF (buf.getD i NUL) then stripIndex buf i else i + 1

/-- A buffer read as a C string: the bytes before the first null byte. -/
def cstr (buf : List Byte) : List Byte := buf.takeWhile (fun b => b != NUL)

/-- What one pass through the body of the loop of `handleUART` does:
the new globals, the buffer indices assigned (in order), whether the guard
of line 63 held, the frame completed (if any) and the `publish` calls made. -/
structure FeedOut where
  state : FramerState
  writes : List Nat
  stored : Bool
  frame : Option Frame
  published : List Envelope
deriving DecidableEq, Repr

/-- Lines 68 to 96, the branch taken when the test of line 67 succeeds.
`buf` and `idx` are the buffer and the cursor after lines 63 to 65,
`counter` is `messageCounter` before the increment, `w1` and `stored`
describe what lines 63 to 65 did. -/
def completeFrame (poll : Poll) (buf : List Byte) (idx counter : Nat) (w1 : List Nat)
    (stored : Bool) : FeedOut :=
  let idx2 := stripIndex buf idx
  let buf2 := buf.set idx2 NUL
  let counter2 := (counter + 1) % UINT32_MOD
  { state := { uartRxBuffer := buf2, uartRxIndex := 0, messageCounter := counter2 }
    writes := w1 ++ [idx2]
    stored := stored
    frame := some { raw := buf.take idx, content := buf2.take idx2, sequence := counter2 }
    published :=
      if poll.wifiConnected && poll.mqttConnected then
        [{ message := cstr buf2, sequence := counter2 }]
      else [] }

/-- The body of the `while` loop of `handleUART` (lines 62 to 97) for one
byte `data`.  The comparisons with `UART_BUFFER_SIZE - 1` are written with
truncated subtraction; for a cursor that is not negative they agree with
the signed comparison of the source for every size, `0` included. -/
def feed (UART_BUFFER_SIZE : Nat) (UART_TERMINATOR : Byte) (poll : Poll)
    (s : FramerState) (data : Byte) : FeedOut :=
  let stored : Bool := decide (s.uartRxIndex < UART_BUFFER_SIZE - 1)
  let buf1 := if stored then s.uartRxBuffer.set s.uartRxIndex data else s.uartRxBuffer
  let idx1 := if stored then (s.uartRxIndex + 1) % UINT16_MOD else s.uartRxIndex
  let w1 := if stored then [s.uartRxIndex] else []
  if data = UART_TERMINATOR ∨ idx1 ≥ UART_BUFFER_SIZE - 1 then
    completeFrame poll buf1 idx1 s.messageCounter w1 stored
  else
    { state := { uartRxBuffer := buf1, uartRxIndex := idx1, messageCounter := s.messageCounter }
      writes := w1
      stored := stored
      frame := none
      published := [] }

/-- The function `handleUART` (lines 60 to 99): the loop over the bytes
available on `Serial2`, giving one `FeedOut` per byte in order.  `polls k`
holds the answers the status polls give during the `k`-th pass. -/
def handleUART (UART_BUFFER_SIZE : Nat) (UART_TERMINATOR : Byte) (polls : Nat → Poll) :
    FramerState → List Byte → List FeedOut
  | _, [] => []
  | s, data :: rest =>
    let o := feed UART_BUFFER_SIZE UART_TERMINATOR (polls 0) s data
    o :: handleUART UART_BUFFER_SIZE UART_TERMINATOR (fun k => polls (k + 1)) o.state rest

/-- The framer state after `handleUART` has drained the given bytes. -/
def finalState (UART_BUFFER_SIZE : Nat) (UART_TERMINATOR : Byte) (polls : Nat → Poll) :
    FramerState → List Byte → FramerState
  | s, [] => s
  | s, data :: rest =>
    finalState UART_BUFFER_SIZE UART_TERMINATOR (fun k => polls (k + 1))
      (feed UART_BUFFER_SIZE UART_TERMINATOR (polls 0) s data).state rest

/-- The frames completed while draining the given bytes, in order. -/
def framesOf (UART_BUFFER_SIZE : Nat) (UART_TERMINATOR : Byte) (polls : Nat → Poll)
    (s : FramerState) (input : List Byte) : List Frame :=
  (handleUART UART_BUFFER_SIZE UART_TERMINATOR polls s input).filterMap (fun o => o.frame)

/-- The `publish` calls made while draining the given bytes, in order. -/
def publishedOf (UART_BUFFER_SIZE : Nat) (UART_TERMINATOR : Byte) (polls : Nat → Poll)
    (s : FramerState) (input : List Byte) : List Envelope :=
  ((handleUART UART_BUFFER_SIZE UART_TERMINATOR polls s input).map (fun o => o.published)).flatten

/-- The bytes accumulated in the buffer and not yet part of a frame. -/
def pending (s : FramerState) : List Byte := s.uartRxBuffer.take s.uartRxIndex

/-- Poll answers that are the same at every pass. -/
def constPoll (wifi mqtt : Bool) : Nat → Poll := fun _ => { wifiConnected := wifi, mqttConnected := mqtt }



/-- The five bytes of the text `hello`. -/
def hello : List Byte := [104, 101, 108, 108, 111]

/-- Wrapping subtraction of two `uint32_t` values, as in
`millis() - lastMqttReconnect`. -/
def sub32 (a b : Nat) : Nat := (a % UINT32_MOD + UINT32_MOD - b % UINT32_MOD) % UINT32_MOD

/-- What the environment answers during one call of `loop`, for the session
part (lines 149 to 154) and the call of `reconnectMQTT` it may make:
the status polls of lines 149 and 150, the two readings of `millis()` at
lines 102 and 103, the status poll of line 105 and the result of
`mqttClient.connect` at line 107. -/
structure TickEnv where
  wifiConnected : Bool
  mqttConnected : Bool
  millisCheck : Nat
  millisRecord : Nat
  wifiStillConnected : Bool
  connectOk : Bool
deriving DecidableEq, Repr

/-- One call of `mqttClient.connect`: the clock reading stored in
`lastMqttReconnect` just before it (line 103) and its result. -/
structure ConnectAttempt where
  time : Nat
  ok : Bool
deriving DecidableEq, Repr

/-- The function `reconnectMQTT` (lines 101 to 114) on the global
`lastMqttReconnect`: the new value of the global and the connect attempt
made, if any. -/
def reconnectMQTT (MQTT_RECONNECT_DELAY : Nat) (lastMqttReconnect : Nat) (env : TickEnv) :
    Nat × Option ConnectAttempt :=
  if sub32 env.millisCheck lastMqttReconnect < MQTT_RECONNECT_DELAY then
    (lastMqttReconnect, none)
  else
    let recorded := env.millisRecord % UINT32_MOD
    if env.wifiStillConnected = false then (recorded, none)
    else (recorded, some { time := recorded, ok := env.connectOk })

/-- The session part of `loop` (lines 149 to 154) on the global
`lastMqttReconnect`.  `handleUART` and the WiFi check of lines 140 to 147
neither read nor write this global; `mqttClient.loop()` is an external
call. -/
def loop (MQTT_RECONNECT_DELAY : Nat) (lastMqttReconnect : Nat) (env : TickEnv) :
    Nat × Option ConnectAttempt :=
  if env.wifiConnected then
    if !env.mqttConnected then reconnectMQTT MQTT_RECONNECT_DELAY lastMqttReconnect env
    else (lastMqttReconnect, none)
  else (lastMqttReconnect, none)

/-- The connect attempts made by a sequence of calls of `loop`, in order. -/
def attemptsOf (MQTT_RECONNECT_DELAY : Nat) : Nat → List TickEnv → List ConnectAttempt
  | _, [] => []
  | last, env :: rest =>
    (loop MQTT_RECONNECT_DELAY last env).2.toList ++
      attemptsOf MQTT_RECONNECT_DELAY (loop MQTT_RECONNECT_DELAY last env).1 rest

/-- The clock readings offered to a sequence of calls of `loop`, in the
order in which `millis()` would return them. -/
def readings : List TickEnv → List Nat
  | [] => []
  | env :: rest => env.millisCheck :: env.millisRecord :: readings rest

/-- What holds of the globals between passes: the array has its declared
size, the cursor leaves room for the null terminator and fits its 16-bit
type. -/
def WellFormed (UART_BUFFER_SIZE : Nat) (s : FramerState) : Prop :=
  s.uartRxBuffer.length = UART_BUFFER_SIZE ∧ s.uartRxIndex ≤ UART_BUFFER_SIZE - 1 ∧
    s.uartRxIndex < UINT16_MOD

instance (UART_BUFFER_SIZE : Nat) (s : FramerState) : Decidable (WellFormed UART_BUFFER_SIZE s) := by
  unfold WellFormed
  infer_instance

/-! ## Basic facts about one pass of the loop -/

theorem stripIndex_le (buf : List Byte) (i : Nat) : stripIndex buf i ≤ i := by
  induction i with
  | zero => simp [stripIndex]
  | succ n ih =>
    unfold stripIndex
    split_ifs
    · omega
    · exact le_refl _

/-- The pass when the guard of line 63 holds and the test of line 67 succeeds. -/
theorem feed_store_complete (cap : Nat) (term : Byte) (p : Poll) (s : FramerState) (d : Byte)
    (hst : s.uartRxIndex < cap - 1)
    (hc : d = term ∨ (s.uartRxIndex + 1) % UINT16_MOD ≥ cap - 1) :
    feed cap term p s d =
      completeFrame p (s.uartRxBuffer.set s.uartRxIndex d) ((s.uartRxIndex + 1) % UINT16_MOD)
        s.messageCounter [s.uartRxIndex] true := by
  unfold feed
  simp only [hst, decide_True, if_true]
  rw [if_pos hc]

/-- The pass when the guard of line 63 holds and the test of line 67 fails. -/
theorem feed_store_continue (cap : Nat) (term : Byte) (p : Poll) (s : FramerState) (d : Byte)
    (hst : s.uartRxIndex < cap - 1)
    (hc : ¬ (d = term ∨ (s.uartRxIndex + 1) % UINT16_MOD ≥ cap - 1)) :
    feed cap term p s d =
      { state := { uartRxBuffer := s.uartRxBuffer.set s.uartRxIndex d
                   uartRxIndex := (s.uartRxIndex + 1) % UINT16_MOD
                   messageCounter := s.messageCounter }
        writes := [s.uartRxIndex]
        stored := true
        frame := none
        published := [] } := by
  unfold feed
  simp only [hst, decide_True, if_true]
  rw [if_neg hc]

/-- The pass when the guard of line 63 fails: the test of line 67 then succeeds. -/
theorem feed_skip_complete (cap : Nat) (term : Byte) (p : Poll) (s : FramerState) (d : Byte)
    (hst : ¬ s.uartRxIndex < cap - 1) :
    feed cap term p s d =
      completeFrame p s.uartRxBuffer s.uartRxIndex s.messageCounter [] false := by
  unfold feed
  have hc : d = term ∨ s.uartRxIndex ≥ cap - 1 := Or.inr (by omega)
  simp only [hst, decide_False, Bool.false_eq_true, if_false]
  rw [if_pos hc]

theorem feed_length (cap : Nat) (term : Byte) (p : Poll) (s : FramerState) (d : Byte) :
    (feed cap term p s d).state.uartRxBuffer.length = s.uartRxBuffer.length := by
  by_cases hst : s.uartRxIndex < cap - 1
  · by_cases hc : d = term ∨ (s.uartRxIndex + 1) % UINT16_MOD ≥ cap - 1
    · rw [feed_store_complete cap term p s d hst hc]; simp [completeFrame]
    · rw [feed_store_continue cap term p s d hst hc]; simp
  · rw [feed_skip_complete cap term p s d hst]; simp [completeFrame]

theorem feed_index_lt (cap : Nat) (term : Byte) (p : Poll) (s : FramerState) (d : Byte)
    (hcap : 1 ≤ cap) : (feed cap term p s d).state.uartRxIndex < cap := by
  by_cases hst : s.uartRxIndex < cap - 1
  · by_cases hc : d = term ∨ (s.uartRxIndex + 1) % UINT16_MOD ≥ cap - 1
    · rw [feed_store_complete cap term p s d hst hc]; simp only [completeFrame]; omega
    · rw [feed_store_continue cap term p s d hst hc]; simp only []; omega
  · rw [feed_skip_complete cap term p s d hst]; simp only [completeFrame]; omega

theorem feed_writes_lt (cap : Nat) (term : Byte) (p : Poll) (s : FramerState) (d : Byte)
    (hidx : s.uartRxIndex < cap) : ∀ w ∈ (feed cap term p s d).writes, w < cap := by
  intro w hw
  have hmod : (s.uartRxIndex + 1) % UINT16_MOD ≤ s.uartRxIndex + 1 := Nat.mod_le _ _
  have hs1 := stripIndex_le (s.uartRxBuffer.set s.uartRxIndex d) ((s.uartRxIndex + 1) % UINT16_MOD)
  have hs2 := stripIndex_le s.uartRxBuffer s.uartRxIndex
  by_cases hst : s.uartRxIndex < cap - 1
  · by_cases hc : d = term ∨ (s.uartRxIndex + 1) % UINT16_MOD ≥ cap - 1
    · rw [feed_store_complete cap term p s d hst hc] at hw
      simp only [completeFrame, List.mem_append, List.mem_singleton] at hw
      rcases hw with rfl | rfl <;> omega
    · rw [feed_store_continue cap term p s d hst hc] at hw
      simp only [List.mem_singleton] at hw
      omega
  · rw [feed_skip_complete cap term p s d hst] at hw
    simp only [completeFrame, List.nil_append, List.mem_singleton] at hw
    omega

/-! ## Buffer prefixes -/

theorem take_set_self (buf : List Byte) (i : Nat) (x : Byte) :
    (buf.set i x).take i = buf.take i := by
  apply List.ext_getElem?
  intro k
  rw [List.getElem?_take, List.getElem?_take]
  split
  · next h => rw [List.getElem?_set_ne (by omega)]
  · rfl

theorem take_succ_set (buf : List Byte) (i : Nat) (x : Byte) (h : i < buf.length) :
    (buf.set i x).take (i + 1) = buf.take i ++ [x] := by
  rw [List.take_succ, take_set_self]
  simp [h]

theorem take_succ_getD (buf : List Byte) (i : Nat) (h : i < buf.length) :
    buf.take (i + 1) = buf.take i ++ [buf.getD i NUL] := by
  rw [List.take_succ]
  simp [h]

/-- The strip loop leaves exactly the accumulated bytes without their
trailing CR and LF bytes. -/
theorem take_stripIndex (buf : List Byte) (i : Nat) (h : i ≤ buf.length) :
    buf.take (stripIndex buf i) = (buf.take i).rdropWhile isCRLF := by
  induction i with
  | zero => simp [stripIndex]
  | succ n ih =>
    have hn : n < buf.length := by omega
    rw [take_succ_getD buf n hn]
    unfold stripIndex
    by_cases hb : isCRLF (buf.getD n NUL) = true
    · rw [if_pos hb, List.rdropWhile_concat_pos _ _ _ hb]
      exact ih (by omega)
    · rw [if_neg hb, List.rdropWhile_concat_neg _ _ _ hb, take_succ_getD buf n hn]

/-- The frame produced by lines 68 to 96. -/
theorem completeFrame_frame (p : Poll) (buf : List Byte) (idx c : Nat) (w : List Nat) (st : Bool)
    (h : idx ≤ buf.length) :
    (completeFrame p buf idx c w st).frame =
      some { raw := buf.take idx
             content := (buf.take idx).rdropWhile isCRLF
             sequence := (c + 1) % UINT32_MOD } := by
  simp only [completeFrame, take_set_self, take_stripIndex buf idx h]

/-! ## The loop over a list of bytes -/

theorem handleUART_cons (cap : Nat) (term : Byte) (polls : Nat → Poll) (s : FramerState)
    (d : Byte) (rest : List Byte) :
    handleUART cap term polls s (d :: rest) =
      feed cap term (polls 0) s d ::
        handleUART cap term (fun k => polls (k + 1)) (feed cap term (polls 0) s d).state rest := rfl

theorem finalState_cons (cap : Nat) (term : Byte) (polls : Nat → Poll) (s : FramerState)
    (d : Byte) (rest : List Byte) :
    finalState cap term polls s (d :: rest) =
      finalState cap term (fun k => polls (k + 1)) (feed cap term (polls 0) s d).state rest := rfl

theorem handleUART_append (cap : Nat) (term : Byte) (xs ys : List Byte) :
    ∀ (polls : Nat → Poll) (s : FramerState),
      handleUART cap term polls s (xs ++ ys) =
        handleUART cap term polls s xs ++
          handleUART cap term (fun k => polls (k + xs.length)) (finalState cap term polls s xs) ys := by
  induction xs with
  | nil => intro polls s; simp [handleUART, finalState]
  | cons x xs ih =>
    intro polls s
    simp only [List.cons_append, handleUART_cons, finalState_cons, ih, List.length_cons]
    simp only [Nat.add_assoc, Nat.add_comm 1]

theorem finalState_append (cap : Nat) (term : Byte) (xs ys : List Byte) :
    ∀ (polls : Nat → Poll) (s : FramerState),
      finalState cap term polls s (xs ++ ys) =
        finalState cap term (fun k => polls (k + xs.length)) (finalState cap term polls s xs) ys := by
  induction xs with
  | nil => intro polls s; simp [finalState]
  | cons x xs ih =>
    intro polls s
    simp only [List.cons_append, finalState_cons, ih, List.length_cons]
    simp only [Nat.add_assoc, Nat.add_comm 1]

theorem framesOf_nil (cap : Nat) (term : Byte) (polls : Nat → Poll) (s : FramerState) :
    framesOf cap term polls s [] = [] := rfl

theorem framesOf_append (cap : Nat) (term : Byte) (xs ys : List Byte)
    (polls : Nat → Poll) (s : FramerState) :
    framesOf cap term polls s (xs ++ ys) =
      framesOf cap term polls s xs ++
        framesOf cap term (fun k => polls (k + xs.length)) (finalState cap term polls s xs) ys := by
  simp only [framesOf, handleUART_append, List.filterMap_append]

/-- The bounds of the cursor and of the buffer that every pass keeps. -/
theorem handleUART_bounds (cap : Nat) (term : Byte) (hcap : 1 ≤ cap) (input : List Byte) :
    ∀ (polls : Nat → Poll) (s : FramerState),
      s.uartRxIndex < cap → s.uartRxBuffer.length = cap →
      ∀ o ∈ handleUART cap term polls s input,
        o.state.uartRxIndex < cap ∧ (∀ w ∈ o.writes, w < cap) ∧
          o.state.uartRxBuffer.length = cap := by
  induction input with
  | nil => intro polls s _ _ o ho; simp [handleUART] at ho
  | cons d rest ih =>
    intro polls s hidx hlen o ho
    rw [handleUART_cons] at ho
    have h1 := feed_index_lt cap term (polls 0) s d hcap
    have h2 := feed_writes_lt cap term (polls 0) s d hidx
    have h3 : (feed cap term (polls 0) s d).state.uartRxBuffer.length = cap := by
      rw [feed_length, hlen]
    rcases List.mem_cons.mp ho with rfl | hmem
    · exact ⟨h1, h2, h3⟩
    · exact ih _ _ h1 h3 o hmem

/-- A run of bytes without terminator that neither fills the buffer nor
wraps the 16-bit cursor: every byte is stored, no frame completes, and the
bytes are appended to the pending ones. -/
theorem quiet_run (cap : Nat) (term : Byte) (xs : List Byte) :
    ∀ (polls : Nat → Poll) (s : FramerState),
      (∀ b ∈ xs, b ≠ term) → s.uartRxIndex + xs.length < cap - 1 →
      s.uartRxIndex + xs.length < UINT16_MOD → s.uartRxBuffer.length = cap →
      (∀ o ∈ handleUART cap term polls s xs, o.frame = none ∧ o.stored = true) ∧
      (finalState cap term polls s xs).uartRxIndex = s.uartRxIndex + xs.length ∧
      (finalState cap term polls s xs).uartRxBuffer.length = cap ∧
      pending (finalState cap term polls s xs) = pending s ++ xs ∧
      (finalState cap term polls s xs).messageCounter = s.messageCounter := by
  induction xs with
  | nil => intro polls s _ _ _ hlen; simp [handleUART, finalState, hlen]
  | cons d rest ih =>
    intro polls s hterm hroom hwrap hlen
    simp only [List.length_cons, UINT16_MOD] at hroom hwrap
    have hst : s.uartRxIndex < cap - 1 := by omega
    have hmod : (s.uartRxIndex + 1) % UINT16_MOD = s.uartRxIndex + 1 := by
      simp only [UINT16_MOD]; omega
    have hd : d ≠ term := hterm d (List.mem_cons_self _ _)
    have hc : ¬ (d = term ∨ (s.uartRxIndex + 1) % UINT16_MOD ≥ cap - 1) := by
      rw [hmod]; intro h; rcases h with h | h
      · exact hd h
      · omega
    have hfeed := feed_store_continue cap term (polls 0) s d hst hc
    rw [hmod] at hfeed
    have hrest := ih (fun k => polls (k + 1)) (feed cap term (polls 0) s d).state
      (fun b hb => hterm b (List.mem_cons_of_mem _ hb))
      (by rw [hfeed]; simp only []; omega)
      (by rw [hfeed]; simp only [UINT16_MOD]; omega)
      (by rw [feed_length, hlen])
    obtain ⟨h1, h2, h3, h4, h5⟩ := hrest
    refine ⟨?_, ?_, h3, ?_, ?_⟩
    · intro o ho
      rw [handleUART_cons] at ho
      rcases List.mem_cons.mp ho with rfl | hmem
      · rw [hfeed]; exact ⟨rfl, rfl⟩
      · exact h1 o hmem
    · rw [finalState_cons, h2, hfeed]; simp only [List.length_cons]; omega
    · rw [finalState_cons, h4, hfeed]
      simp only [pending]
      rw [take_succ_set _ _ _ (by omega)]
      simp
    · rw [finalState_cons, h5, hfeed]

theorem framesOf_eq_nil_of_trace (cap : Nat) (term : Byte) (polls : Nat → Poll)
    (s : FramerState) (xs : List Byte)
    (h : ∀ o ∈ handleUART cap term polls s xs, o.frame = none ∧ o.stored = true) :
    framesOf cap term polls s xs = [] := by
  unfold framesOf
  rw [List.filterMap_eq_nil_iff]
  intro o ho
  exact (h o ho).1

/-- A pass that stores its byte without wrapping the cursor and completes a
frame, by terminator or by forced flush. -/
theorem feed_complete (cap : Nat) (term : Byte) (p : Poll) (s : FramerState) (d : Byte)
    (hst : s.uartRxIndex < cap - 1) (hwrap : s.uartRxIndex + 1 < UINT16_MOD)
    (hlen : s.uartRxBuffer.length = cap) (hc : d = term ∨ s.uartRxIndex + 1 ≥ cap - 1) :
    (feed cap term p s d).frame =
        some { raw := pending s ++ [d]
               content := (pending s ++ [d]).rdropWhile isCRLF
               sequence := (s.messageCounter + 1) % UINT32_MOD } ∧
      (feed cap term p s d).stored = true ∧
      (feed cap term p s d).state.uartRxIndex = 0 ∧
      (feed cap term p s d).state.messageCounter = (s.messageCounter + 1) % UINT32_MOD := by
  have hmod : (s.uartRxIndex + 1) % UINT16_MOD = s.uartRxIndex + 1 := Nat.mod_eq_of_lt hwrap
  have hc2 : d = term ∨ (s.uartRxIndex + 1) % UINT16_MOD ≥ cap - 1 := by rw [hmod]; exact hc
  rw [feed_store_complete cap term p s d hst hc2, hmod]
  refine ⟨?_, rfl, rfl, rfl⟩
  rw [completeFrame_frame _ _ _ _ _ _ (by rw [List.length_set]; omega),
    take_succ_set _ _ _ (by omega)]
  rfl

theorem framesOf_singleton (cap : Nat) (term : Byte) (polls : Nat → Poll) (s : FramerState)
    (d : Byte) :
    framesOf cap term polls s [d] = (feed cap term (polls 0) s d).frame.toList := by
  simp only [framesOf, handleUART, List.filterMap_cons, List.filterMap_nil]
  cases (feed cap term (polls 0) s d).frame <;> rfl

theorem pending_initState (cap : Nat) : pending (initState cap) = [] := by
  simp only [pending, initState, List.take_zero]

theorem length_initState (cap : Nat) : (initState cap).uartRxBuffer.length = cap := by
  simp only [initState, List.length_replicate]

/-- A run of bytes without terminator followed by one byte that completes a
frame, from the empty state, when the 16-bit cursor does not wrap: exactly
one frame, holding all the bytes, stripped of trailing CR and LF. -/
theorem one_frame_run (cap : Nat) (term : Byte) (polls : Nat → Poll) (xs : List Byte) (d : Byte)
    (hterm : ∀ b ∈ xs, b ≠ term) (hroom : xs.length < cap - 1)
    (hwrap : xs.length + 1 < UINT16_MOD) (hc : d = term ∨ xs.length + 1 ≥ cap - 1) :
    framesOf cap term polls (initState cap) (xs ++ [d]) =
        [{ raw := xs ++ [d], content := (xs ++ [d]).rdropWhile isCRLF, sequence := 1 }] ∧
      (finalState cap term polls (initState cap) (xs ++ [d])).uartRxIndex = 0 ∧
      (finalState cap term polls (initState cap) (xs ++ [d])).messageCounter = 1 := by
  have hq := quiet_run cap term xs polls (initState cap) hterm
    (by simp only [initState]; omega) (by simp only [initState]; omega) (length_initState cap)
  obtain ⟨h1, h2, h3, h4, h5⟩ := hq
  rw [pending_initState, List.nil_append] at h4
  have hidx : (finalState cap term polls (initState cap) xs).uartRxIndex = xs.length := by
    rw [h2]; simp only [initState]; omega
  have hctr : (finalState cap term polls (initState cap) xs).messageCounter = 0 := by
    rw [h5]; rfl
  have hf := feed_complete cap term (polls (0 + xs.length))
    (finalState cap term polls (initState cap) xs) d
    (by rw [hidx]; exact hroom) (by rw [hidx]; exact hwrap) h3 (by rw [hidx]; exact hc)
  rw [h4, hctr] at hf
  obtain ⟨f1, _, f3, f4⟩ := hf
  refine ⟨?_, ?_, ?_⟩
  · rw [framesOf_append, framesOf_eq_nil_of_trace cap term polls _ xs h1, List.nil_append,
      framesOf_singleton, f1]
    rfl
  · rw [finalState_append]
    exact f3
  · rw [finalState_append]
    exact f4

theorem framesOf_cons (cap : Nat) (term : Byte) (polls : Nat → Poll) (s : FramerState)
    (d : Byte) (rest : List Byte) :
    framesOf cap term polls s (d :: rest) =
      (feed cap term (polls 0) s d).frame.toList ++
        framesOf cap term (fun k => polls (k + 1)) (feed cap term (polls 0) s d).state rest := by
  simp only [framesOf, handleUART_cons, List.filterMap_cons]
  cases (feed cap term (polls 0) s d).frame <;> rfl

/-- A pass that stores its byte without wrapping the cursor and completes
no frame. -/
theorem feed_continue (cap : Nat) (term : Byte) (p : Poll) (s : FramerState) (d : Byte)
    (hst : s.uartRxIndex < cap - 1) (hwrap : s.uartRxIndex + 1 < UINT16_MOD)
    (hlen : s.uartRxBuffer.length = cap) (hc : ¬ (d = term ∨ s.uartRxIndex + 1 ≥ cap - 1)) :
    (feed cap term p s d).frame = none ∧
      (feed cap term p s d).stored = true ∧
      (feed cap term p s d).state.uartRxIndex = s.uartRxIndex + 1 ∧
      pending (feed cap term p s d).state = pending s ++ [d] ∧
      (feed cap term p s d).state.messageCounter = s.messageCounter := by
  have hmod : (s.uartRxIndex + 1) % UINT16_MOD = s.uartRxIndex + 1 := Nat.mod_eq_of_lt hwrap
  have hc2 : ¬ (d = term ∨ (s.uartRxIndex + 1) % UINT16_MOD ≥ cap - 1) := by rw [hmod]; exact hc
  rw [feed_store_continue cap term p s d hst hc2, hmod]
  refine ⟨rfl, rfl, rfl, ?_, rfl⟩
  simp only [pending]
  exact take_succ_set _ _ _ (by omega)

/-- When the buffer is larger than the range of the 16-bit cursor, `65536`
bytes without terminator wrap the cursor back to `0` and complete no frame. -/
theorem wrap_run (cap : Nat) (term d : Byte) (polls : Nat → Poll) (n : Nat)
    (hn : n + 1 = UINT16_MOD) (hd : d ≠ term) (hcap : UINT16_MOD + 1 ≤ cap) :
    framesOf cap term polls (initState cap) (List.replicate (n + 1) d) = [] ∧
      (finalState cap term polls (initState cap) (List.replicate (n + 1) d)).uartRxIndex = 0 := by
  have hq := quiet_run cap term (List.replicate n d) polls (initState cap)
    (fun b hb => by rw [List.eq_of_mem_replicate hb]; exact hd)
    (by simp only [initState, List.length_replicate]; omega)
    (by simp only [initState, List.length_replicate]; omega) (length_initState cap)
  obtain ⟨h1, h2, h3, _, _⟩ := hq
  have hidx : (finalState cap term polls (initState cap) (List.replicate n d)).uartRxIndex = n := by
    rw [h2]; simp only [initState, List.length_replicate]; omega
  have hst : (finalState cap term polls (initState cap) (List.replicate n d)).uartRxIndex <
      cap - 1 := by rw [hidx]; omega
  have hzero : ((finalState cap term polls (initState cap) (List.replicate n d)).uartRxIndex + 1) %
      UINT16_MOD = 0 := by rw [hidx, hn]; exact Nat.mod_self _
  have hc : ¬ (d = term ∨
      ((finalState cap term polls (initState cap) (List.replicate n d)).uartRxIndex + 1) %
        UINT16_MOD ≥ cap - 1) := by
    rw [hzero]; intro h; rcases h with h | h
    · exact hd h
    · simp only [UINT16_MOD] at hcap; omega
  have hfeed := feed_store_continue cap term (polls (0 + (List.replicate n d).length))
    (finalState cap term polls (initState cap) (List.replicate n d)) d hst hc
  rw [List.replicate_succ']
  refine ⟨?_, ?_⟩
  · rw [framesOf_append, framesOf_eq_nil_of_trace cap term polls _ _ h1, List.nil_append,
      framesOf_singleton, hfeed]
    rfl
  · rw [finalState_append]
    simp only [finalState]
    rw [hfeed]
    exact hzero

/-- With a capacity from 2 to 65536 every byte is stored, the cursor stays at
most `cap - 2` between passes, and the accumulated bytes of the completed
frames followed by the pending bytes are the pending bytes at the start
followed by the input. -/
theorem lossless_run (cap : Nat) (term : Byte) (hcap : 2 ≤ cap) (h16 : cap ≤ UINT16_MOD)
    (input : List Byte) :
    ∀ (polls : Nat → Poll) (s : FramerState),
      s.uartRxIndex ≤ cap - 2 → s.uartRxBuffer.length = cap →
      (∀ o ∈ handleUART cap term polls s input, o.stored = true ∧ o.state.uartRxIndex ≤ cap - 2) ∧
        ((framesOf cap term polls s input).map (fun f => f.raw)).flatten ++
            pending (finalState cap term polls s input) = pending s ++ input := by
  induction input with
  | nil => intro polls s _ _; simp [handleUART, framesOf, finalState]
  | cons d rest ih =>
    intro polls s hidx hlen
    have hst : s.uartRxIndex < cap - 1 := by omega
    have hwrap : s.uartRxIndex + 1 < UINT16_MOD := by simp only [UINT16_MOD] at h16 ⊢; omega
    have hlen1 : (feed cap term (polls 0) s d).state.uartRxBuffer.length = cap := by
      rw [feed_length, hlen]
    by_cases hc : d = term ∨ s.uartRxIndex + 1 ≥ cap - 1
    · obtain ⟨f1, f2, f3, _⟩ := feed_complete cap term (polls 0) s d hst hwrap hlen hc
      have hp : pending (feed cap term (polls 0) s d).state = [] := by
        simp only [pending, f3, List.take_zero]
      obtain ⟨r1, r2⟩ := ih (fun k => polls (k + 1)) (feed cap term (polls 0) s d).state
        (by rw [f3]; omega) hlen1
      rw [hp, List.nil_append] at r2
      refine ⟨?_, ?_⟩
      · intro o ho
        rw [handleUART_cons] at ho
        rcases List.mem_cons.mp ho with rfl | hmem
        · exact ⟨f2, by rw [f3]; omega⟩
        · exact r1 o hmem
      · rw [framesOf_cons, finalState_cons, f1]
        simp only [Option.toList, List.singleton_append, List.map_cons, List.flatten_cons,
          List.append_assoc, List.cons_append, List.nil_append]
        rw [r2]
    · obtain ⟨f1, f2, f3, f4, _⟩ := feed_continue cap term (polls 0) s d hst hwrap hlen hc
      obtain ⟨r1, r2⟩ := ih (fun k => polls (k + 1)) (feed cap term (polls 0) s d).state
        (by rw [f3]; omega) hlen1
      refine ⟨?_, ?_⟩
      · intro o ho
        rw [handleUART_cons] at ho
        rcases List.mem_cons.mp ho with rfl | hmem
        · exact ⟨f2, by rw [f3]; omega⟩
        · exact r1 o hmem
      · rw [framesOf_cons, finalState_cons, f1]
        simp only [Option.toList, List.nil_append]
        rw [r2, f4]
        simp

theorem wellFormed_initState (cap : Nat) : WellFormed cap (initState cap) := by
  refine ⟨length_initState cap, ?_, ?_⟩ <;> simp only [initState, UINT16_MOD] <;> omega

/-- One pass from a well-formed state, in terms of the bytes accumulated
after lines 63 to 65: they are the pending bytes with the new byte
appended, or (when the byte is dropped or the cursor wraps) a prefix of the
pending bytes.  Either no frame completes and they stay pending, or a frame
completes with them as accumulated bytes and the cursor returns to 0. -/
theorem feed_spec (cap : Nat) (term : Byte) (p : Poll) (s : FramerState) (d : Byte)
    (hw : WellFormed cap s) :
    WellFormed cap (feed cap term p s d).state ∧
      ∃ acc : List Byte, (acc = pending s ++ [d] ∨ acc <+: pending s) ∧
        (((feed cap term p s d).frame = none ∧ d ≠ term ∧
            pending (feed cap term p s d).state = acc ∧
            (feed cap term p s d).state.messageCounter = s.messageCounter) ∨
          ((feed cap term p s d).frame =
              some { raw := acc, content := acc.rdropWhile isCRLF
                     sequence := (s.messageCounter + 1) % UINT32_MOD } ∧
            (feed cap term p s d).state.uartRxIndex = 0 ∧
            (feed cap term p s d).state.messageCounter =
              (s.messageCounter + 1) % UINT32_MOD)) := by
  obtain ⟨hlen, hidx, h16⟩ := hw
  have hM : 0 < UINT16_MOD := by simp only [UINT16_MOD]; omega
  have hmodle : (s.uartRxIndex + 1) % UINT16_MOD ≤ s.uartRxIndex + 1 := Nat.mod_le _ _
  have hmodlt : (s.uartRxIndex + 1) % UINT16_MOD < UINT16_MOD := Nat.mod_lt _ hM
  by_cases hst : s.uartRxIndex < cap - 1
  · have hacc : (s.uartRxBuffer.set s.uartRxIndex d).take ((s.uartRxIndex + 1) % UINT16_MOD) =
          pending s ++ [d] ∨
        (s.uartRxBuffer.set s.uartRxIndex d).take ((s.uartRxIndex + 1) % UINT16_MOD) <+:
          pending s := by
      by_cases hm : s.uartRxIndex + 1 < UINT16_MOD
      · left
        rw [Nat.mod_eq_of_lt hm]
        exact take_succ_set _ _ _ (by omega)
      · right
        have : s.uartRxIndex + 1 = UINT16_MOD := by omega
        rw [this, Nat.mod_self, List.take_zero]
        exact List.nil_prefix
    by_cases hc : d = term ∨ (s.uartRxIndex + 1) % UINT16_MOD ≥ cap - 1
    · rw [feed_store_complete cap term p s d hst hc]
      refine ⟨?_, _, hacc, Or.inr ⟨?_, rfl, rfl⟩⟩
      · refine ⟨?_, ?_, hM⟩
        · simp only [completeFrame, List.length_set]; exact hlen
        · simp only [completeFrame]; omega
      · exact completeFrame_frame _ _ _ _ _ _ (by rw [List.length_set]; omega)
    · rw [feed_store_continue cap term p s d hst hc]
      refine ⟨⟨?_, ?_, hmodlt⟩, _, hacc, Or.inl ⟨rfl, fun h => hc (Or.inl h), rfl, rfl⟩⟩
      · simp only [List.length_set]; exact hlen
      · simp only []; omega
  · rw [feed_skip_complete cap term p s d hst]
    refine ⟨?_, pending s, Or.inr (List.prefix_refl _), Or.inr ⟨?_, rfl, rfl⟩⟩
    · refine ⟨?_, ?_, hM⟩
      · simp only [completeFrame, List.length_set]; exact hlen
      · simp only [completeFrame]; omega
    · exact completeFrame_frame _ _ _ _ _ _ (by omega)

theorem isCRLF_eq_true_iff (b : Byte) : isCRLF b = true ↔ b = CR ∨ b = LF := by
  simp [isCRLF]

theorem isCRLF_eq_false_iff (b : Byte) : isCRLF b = false ↔ b ≠ CR ∧ b ≠ LF := by
  simp [isCRLF]

/-- Stripping the accumulated bytes of a pass leaves no terminator byte when
the terminator is itself CR or LF and the pending bytes hold none. -/
theorem not_mem_strip_acc (term d : Byte) (pend acc : List Byte)
    (hpend : ∀ b ∈ pend, b ≠ term) (hacc : acc = pend ++ [d] ∨ acc <+: pend)
    (hterm : isCRLF term = true) : term ∉ acc.rdropWhile isCRLF := by
  intro hmem
  rcases hacc with rfl | hpre
  · by_cases hd : isCRLF d = true
    · rw [List.rdropWhile_concat_pos _ _ _ hd] at hmem
      exact hpend term ((List.rdropWhile_prefix isCRLF _).mem hmem) rfl
    · rw [List.rdropWhile_concat_neg _ _ _ hd] at hmem
      rcases List.mem_append.mp hmem with h | h
      · exact hpend term h rfl
      · rw [List.mem_singleton] at h
        rw [← h] at hd
        exact hd hterm
  · exact hpend term (hpre.mem ((List.rdropWhile_prefix isCRLF _).mem hmem)) rfl

/-- Every frame emitted from a well-formed state whose pending bytes hold
no terminator is the accumulated bytes without their trailing CR and LF
bytes, and holds no terminator byte when the terminator is CR or LF. -/
theorem frames_stripped (cap : Nat) (term : Byte) (input : List Byte) :
    ∀ (polls : Nat → Poll) (s : FramerState),
      WellFormed cap s → (∀ b ∈ pending s, b ≠ term) →
      ∀ f ∈ framesOf cap term polls s input,
        f.content = f.raw.rdropWhile isCRLF ∧ (isCRLF term = true → term ∉ f.content) := by
  induction input with
  | nil => intro polls s _ _ f hf; simp [framesOf, handleUART] at hf
  | cons d rest ih =>
    intro polls s hw hpend f hf
    rw [framesOf_cons] at hf
    obtain ⟨hw1, acc, hacc, hcase⟩ := feed_spec cap term (polls 0) s d hw
    rcases hcase with ⟨hnone, hd, hp, _⟩ | ⟨hsome, hzero, _⟩
    · rw [hnone] at hf
      simp only [Option.toList, List.nil_append] at hf
      refine ih _ _ hw1 ?_ f hf
      rw [hp]
      intro b hb
      rcases hacc with rfl | hpre
      · rcases List.mem_append.mp hb with h | h
        · exact hpend b h
        · rw [List.mem_singleton] at h; rw [h]; exact hd
      · exact hpend b (hpre.mem hb)
    · rw [hsome] at hf
      simp only [Option.toList, List.singleton_append, List.mem_cons] at hf
      rcases hf with rfl | hf
      · exact ⟨rfl, fun ht => not_mem_strip_acc term d (pending s) acc hpend hacc ht⟩
      · refine ih _ _ hw1 ?_ f hf
        simp only [pending, hzero, List.take_zero]
        intro b hb
        exact absurd hb (List.not_mem_nil b)

/-- A byte other than the terminator, stored with room to spare, completes
no frame and moves the cursor by at most one. -/
theorem feed_frame_none (cap : Nat) (term : Byte) (p : Poll) (s : FramerState) (d : Byte)
    (hd : d ≠ term) (h : s.uartRxIndex + 1 < cap - 1) :
    (feed cap term p s d).frame = none ∧
      (feed cap term p s d).state.uartRxIndex ≤ s.uartRxIndex + 1 := by
  have hmodle : (s.uartRxIndex + 1) % UINT16_MOD ≤ s.uartRxIndex + 1 := Nat.mod_le _ _
  have hst : s.uartRxIndex < cap - 1 := by omega
  have hc : ¬ (d = term ∨ (s.uartRxIndex + 1) % UINT16_MOD ≥ cap - 1) := by
    intro h; rcases h with h | h
    · exact hd h
    · omega
  rw [feed_store_continue cap term p s d hst hc]
  exact ⟨rfl, hmodle⟩

/-- A run of CR and LF bytes other than the terminator, short enough not to
fill the buffer: no frame completes and the pending bytes stay CR and LF,
whether or not the 16-bit cursor wraps. -/
theorem crlf_run (cap : Nat) (term : Byte) (xs : List Byte) :
    ∀ (polls : Nat → Poll) (s : FramerState) (k : Nat),
      WellFormed cap s → s.uartRxIndex ≤ k → (∀ b ∈ pending s, isCRLF b = true) →
      (∀ b ∈ xs, isCRLF b = true ∧ b ≠ term) → k + xs.length < cap - 1 →
      framesOf cap term polls s xs = [] ∧
        WellFormed cap (finalState cap term polls s xs) ∧
        (∀ b ∈ pending (finalState cap term polls s xs), isCRLF b = true) ∧
        (finalState cap term polls s xs).messageCounter = s.messageCounter := by
  induction xs with
  | nil => intro polls s k hw _ hp _ _; exact ⟨rfl, hw, hp, rfl⟩
  | cons d rest ih =>
    intro polls s k hw hk hp hxs hroom
    simp only [List.length_cons] at hroom
    obtain ⟨hdc, hdt⟩ := hxs d (List.mem_cons_self _ _)
    obtain ⟨hnone, hle⟩ := feed_frame_none cap term (polls 0) s d hdt (by omega)
    obtain ⟨hw1, acc, hacc, hcase⟩ := feed_spec cap term (polls 0) s d hw
    rcases hcase with ⟨_, _, hpend, hctr⟩ | ⟨hsome, _, _⟩
    · have hp1 : ∀ b ∈ pending (feed cap term (polls 0) s d).state, isCRLF b = true := by
        rw [hpend]
        intro b hb
        rcases hacc with rfl | hpre
        · rcases List.mem_append.mp hb with h | h
          · exact hp b h
          · rw [List.mem_singleton] at h; rw [h]; exact hdc
        · exact hp b (hpre.mem hb)
      obtain ⟨r1, r2, r3, r4⟩ := ih (fun j => polls (j + 1)) (feed cap term (polls 0) s d).state
        (k + 1) hw1 (by omega) hp1 (fun b hb => hxs b (List.mem_cons_of_mem _ hb)) (by omega)
      refine ⟨?_, ?_, ?_, ?_⟩
      · rw [framesOf_cons, hnone, r1]; rfl
      · rw [finalState_cons]; exact r2
      · rw [finalState_cons]; exact r3
      · rw [finalState_cons, r4, hctr]
    · rw [hnone] at hsome
      exact absurd hsome (by simp)

/-! ## The sequence counter -/

/-- What one pass does to `messageCounter`: nothing when no frame completes,
one increment modulo `2^32`, carried by the frame, when one does. -/
theorem feed_counter (cap : Nat) (term : Byte) (p : Poll) (s : FramerState) (d : Byte) :
    ((feed cap term p s d).frame = none ∧
        (feed cap term p s d).state.messageCounter = s.messageCounter) ∨
      (∃ f, (feed cap term p s d).frame = some f ∧
        f.sequence = (s.messageCounter + 1) % UINT32_MOD ∧
        (feed cap term p s d).state.messageCounter = (s.messageCounter + 1) % UINT32_MOD) := by
  by_cases hst : s.uartRxIndex < cap - 1
  · by_cases hc : d = term ∨ (s.uartRxIndex + 1) % UINT16_MOD ≥ cap - 1
    · rw [feed_store_complete cap term p s d hst hc]
      exact Or.inr ⟨_, rfl, rfl, rfl⟩
    · rw [feed_store_continue cap term p s d hst hc]
      exact Or.inl ⟨rfl, rfl⟩
  · rw [feed_skip_complete cap term p s d hst]
    exact Or.inr ⟨_, rfl, rfl, rfl⟩

/-- The sequence numbers of the frames of a run are the successors of the
starting counter, modulo `2^32`, and the counter ends at the last of them. -/
theorem counters_run (cap : Nat) (term : Byte) (input : List Byte) :
    ∀ (polls : Nat → Poll) (s : FramerState),
      (framesOf cap term polls s input).map (fun f => f.sequence) =
          (List.range' 1 (framesOf cap term polls s input).length).map
            (fun k => (s.messageCounter + k) % UINT32_MOD) ∧
        (finalState cap term polls s input).messageCounter % UINT32_MOD =
          (s.messageCounter + (framesOf cap term polls s input).length) % UINT32_MOD := by
  induction input with
  | nil => intro polls s; simp [framesOf, handleUART, finalState]
  | cons d rest ih =>
    intro polls s
    obtain ⟨r1, r2⟩ := ih (fun k => polls (k + 1)) (feed cap term (polls 0) s d).state
    rw [framesOf_cons, finalState_cons]
    rcases feed_counter cap term (polls 0) s d with ⟨hnone, hctr⟩ | ⟨f, hsome, hseq, hctr⟩
    · rw [hnone]
      simp only [Option.toList, List.nil_append]
      rw [r1, r2, hctr]
      exact ⟨rfl, rfl⟩
    · rw [hsome]
      simp only [Option.toList, List.singleton_append, List.map_cons, List.length_cons]
      rw [r1, r2, hctr, hseq, List.range'_succ, List.map_cons]
      refine ⟨?_, ?_⟩
      · congr 1
        have h2 : List.range' (1 + 1) (framesOf cap term (fun k => polls (k + 1))
            (feed cap term (polls 0) s d).state rest).length =
            List.map (fun k => 1 + k) (List.range' 1 (framesOf cap term (fun k => polls (k + 1))
              (feed cap term (polls 0) s d).state rest).length) := by
          rw [List.map_add_range']
        rw [h2, List.map_map]
        apply List.map_congr_left
        intro k _
        simp only [Function.comp, UINT32_MOD]
        omega
      · simp only [UINT32_MOD]
        omega

/-- A terminator byte always completes a frame. -/
theorem feed_terminator_frame (cap : Nat) (term : Byte) (p : Poll) (s : FramerState) :
    ∃ f, (feed cap term p s term).frame = some f := by
  by_cases hst : s.uartRxIndex < cap - 1
  · rw [feed_store_complete cap term p s term hst (Or.inl rfl)]
    exact ⟨_, rfl⟩
  · rw [feed_skip_complete cap term p s term hst]
    exact ⟨_, rfl⟩

/-- A run of `n` terminator bytes completes `n` frames. -/
theorem terminators_frames_length (cap : Nat) (term : Byte) (n : Nat) :
    ∀ (polls : Nat → Poll) (s : FramerState),
      (framesOf cap term polls s (List.replicate n term)).length = n := by
  induction n with
  | zero => intro polls s; rfl
  | succ n ih =>
    intro polls s
    rw [List.replicate_succ, framesOf_cons]
    obtain ⟨f, hf⟩ := feed_terminator_frame cap term (polls 0) s
    rw [hf]
    simp only [Option.toList, List.singleton_append, List.length_cons, ih]

/-- The sequence number of the frame at position `k` of a run. -/
theorem sequence_at (cap : Nat) (term : Byte) (polls : Nat → Poll) (s : FramerState)
    (input : List Byte) (k : Nat) (hk : k < (framesOf cap term polls s input).length) :
    ((framesOf cap term polls s input).map (fun f => f.sequence))[k]? =
      some ((s.messageCounter + (1 + k)) % UINT32_MOD) := by
  rw [(counters_run cap term input polls s).1, List.getElem?_map, List.getElem?_range' _ _ hk]
  simp

/-- The counter stays within its 32-bit range. -/
theorem counter_lt_run (cap : Nat) (term : Byte) (input : List Byte) :
    ∀ (polls : Nat → Poll) (s : FramerState), s.messageCounter < UINT32_MOD →
      (finalState cap term polls s input).messageCounter < UINT32_MOD := by
  induction input with
  | nil => intro polls s h; exact h
  | cons d rest ih =>
    intro polls s h
    rw [finalState_cons]
    apply ih
    rcases feed_counter cap term (polls 0) s d with ⟨_, hctr⟩ | ⟨f, _, _, hctr⟩
    · rw [hctr]; exact h
    · rw [hctr]; exact Nat.mod_lt _ (by simp only [UINT32_MOD]; omega)

/-! ## Publishing and connectivity -/

/-- The `publish` calls of one pass: none without a completed frame, and for
a completed frame one call exactly when both polls of line 86 answer yes. -/
theorem feed_published (cap : Nat) (term : Byte) (p : Poll) (s : FramerState) (d : Byte) :
    ((feed cap term p s d).frame = none → (feed cap term p s d).published = []) ∧
      (∀ f, (feed cap term p s d).frame = some f →
        (feed cap term p s d).published =
          if p.wifiConnected && p.mqttConnected then
            [{ message := cstr (feed cap term p s d).state.uartRxBuffer, sequence := f.sequence }]
          else []) := by
  by_cases hst : s.uartRxIndex < cap - 1
  · by_cases hc : d = term ∨ (s.uartRxIndex + 1) % UINT16_MOD ≥ cap - 1
    · rw [feed_store_complete cap term p s d hst hc]
      refine ⟨fun h => absurd h (by simp [completeFrame]), fun f hf => ?_⟩
      simp only [completeFrame, Option.some.injEq] at hf
      subst hf
      rfl
    · rw [feed_store_continue cap term p s d hst hc]
      exact ⟨fun _ => rfl, fun f hf => absurd hf (by simp)⟩
  · rw [feed_skip_complete cap term p s d hst]
    refine ⟨fun h => absurd h (by simp [completeFrame]), fun f hf => ?_⟩
    simp only [completeFrame, Option.some.injEq] at hf
    subst hf
    rfl

/-- The poll answers change neither the new globals nor the frame, the
indices assigned or the storing of the byte. -/
theorem feed_poll_independent (cap : Nat) (term : Byte) (p q : Poll) (s : FramerState)
    (d : Byte) :
    (feed cap term p s d).state = (feed cap term q s d).state ∧
      (feed cap term p s d).frame = (feed cap term q s d).frame ∧
      (feed cap term p s d).writes = (feed cap term q s d).writes ∧
      (feed cap term p s d).stored = (feed cap term q s d).stored := by
  by_cases hst : s.uartRxIndex < cap - 1
  · by_cases hc : d = term ∨ (s.uartRxIndex + 1) % UINT16_MOD ≥ cap - 1
    · rw [feed_store_complete cap term p s d hst hc, feed_store_complete cap term q s d hst hc]
      exact ⟨rfl, rfl, rfl, rfl⟩
    · rw [feed_store_continue cap term p s d hst hc, feed_store_continue cap term q s d hst hc]
      exact ⟨rfl, rfl, rfl, rfl⟩
  · rw [feed_skip_complete cap term p s d hst, feed_skip_complete cap term q s d hst]
    exact ⟨rfl, rfl, rfl, rfl⟩

theorem run_poll_independent (cap : Nat) (term : Byte) (input : List Byte) :
    ∀ (polls1 polls2 : Nat → Poll) (s : FramerState),
      framesOf cap term polls1 s input = framesOf cap term polls2 s input ∧
        finalState cap term polls1 s input = finalState cap term polls2 s input := by
  induction input with
  | nil => intro polls1 polls2 s; exact ⟨rfl, rfl⟩
  | cons d rest ih =>
    intro polls1 polls2 s
    obtain ⟨h1, h2, _, _⟩ := feed_poll_independent cap term (polls1 0) (polls2 0) s d
    obtain ⟨r1, r2⟩ := ih (fun k => polls1 (k + 1)) (fun k => polls2 (k + 1))
      (feed cap term (polls2 0) s d).state
    rw [framesOf_cons, framesOf_cons, finalState_cons, finalState_cons, h1, h2, r1, r2]
    exact ⟨rfl, rfl⟩

/-- The `k`-th pass of a run publishes by the rule of `feed_published`, with
the poll answers of that pass. -/
theorem trace_published (cap : Nat) (term : Byte) (input : List Byte) :
    ∀ (polls : Nat → Poll) (s : FramerState) (k : Nat) (o : FeedOut),
      (handleUART cap term polls s input)[k]? = some o →
      (o.frame = none → o.published = []) ∧
        (∀ f, o.frame = some f →
          o.published =
            if (polls k).wifiConnected && (polls k).mqttConnected then
              [{ message := cstr o.state.uartRxBuffer, sequence := f.sequence }]
            else []) := by
  induction input with
  | nil => intro polls s k o h; simp [handleUART] at h
  | cons d rest ih =>
    intro polls s k o h
    rw [handleUART_cons] at h
    cases k with
    | zero =>
      simp only [List.getElem?_cons_zero, Option.some.injEq] at h
      subst h
      exact feed_published cap term (polls 0) s d
    | succ k =>
      simp only [List.getElem?_cons_succ] at h
      exact ih (fun j => polls (j + 1)) _ k o h

/-! ## The session supervisor -/

theorem attemptsOf_cons (delay last : Nat) (env : TickEnv) (rest : List TickEnv) :
    attemptsOf delay last (env :: rest) =
      (loop delay last env).2.toList ++ attemptsOf delay (loop delay last env).1 rest := rfl

/-- The three outcomes of one call of `loop`: nothing changes; the clock is
recorded without a connect attempt; the clock is recorded and a connect
attempt is made.  In the last two the rate-limit test of line 102 passed. -/
theorem loop_cases (delay last : Nat) (env : TickEnv) :
    loop delay last env = (last, none) ∨
      (¬ sub32 env.millisCheck last < delay ∧
        (loop delay last env = (env.millisRecord % UINT32_MOD, none) ∨
          loop delay last env = (env.millisRecord % UINT32_MOD,
            some { time := env.millisRecord % UINT32_MOD, ok := env.connectOk }))) := by
  unfold loop reconnectMQTT
  by_cases h1 : env.wifiConnected = true
  · by_cases h2 : env.mqttConnected = true
    · simp [h1, h2]
    · by_cases h3 : sub32 env.millisCheck last < delay
      · simp [h1, h2, h3]
      · by_cases h4 : env.wifiStillConnected = false
        · simp [h1, h2, h3, h4]
        · simp [h1, h2, h3, h4]
  · simp [h1]

/-- From a recorded time that no later clock reading precedes, all connect
attempts are at least the delay after it and pairwise at least the delay
apart. -/
theorem attempts_spaced (delay : Nat) (envs : List TickEnv) :
    ∀ last : Nat, last < UINT32_MOD → (∀ r ∈ readings envs, last ≤ r) →
      (readings envs).Pairwise (fun a b => a ≤ b) → (∀ r ∈ readings envs, r < UINT32_MOD) →
      (∀ a ∈ attemptsOf delay last envs, last + delay ≤ a.time) ∧
        (attemptsOf delay last envs).Pairwise (fun a b => a.time + delay ≤ b.time) := by
  induction envs with
  | nil => intro last _ _ _ _; simp [attemptsOf]
  | cons env rest ih =>
    intro last hlast hge hmono h32
    simp only [readings, List.pairwise_cons, List.mem_cons, forall_eq_or_imp] at hge hmono h32
    obtain ⟨hg1, hg2, hg3⟩ := hge
    obtain ⟨⟨hm1, hm2⟩, hm3, hm4⟩ := hmono
    obtain ⟨hb1, hb2, hb3⟩ := h32
    have hrec : env.millisRecord % UINT32_MOD = env.millisRecord := Nat.mod_eq_of_lt hb2
    rw [attemptsOf_cons]
    rcases loop_cases delay last env with h | ⟨hpass, h | h⟩
    · rw [h]
      simp only [Option.toList, List.nil_append]
      exact ih last hlast hg3 hm4 hb3
    · rw [h, hrec]
      simp only [Option.toList, List.nil_append]
      obtain ⟨r1, r2⟩ := ih env.millisRecord hb2 hm3 hm4 hb3
      exact ⟨fun a ha => by have := r1 a ha; omega, r2⟩
    · rw [h, hrec]
      simp only [Option.toList, List.singleton_append, List.pairwise_cons, List.mem_cons,
        forall_eq_or_imp]
      obtain ⟨r1, r2⟩ := ih env.millisRecord hb2 hm3 hm4 hb3
      have hcheck : last + delay ≤ env.millisCheck := by
        simp only [sub32, UINT32_MOD] at hpass hlast hb1
        omega
      exact ⟨⟨by omega, fun a ha => by have := r1 a ha; omega⟩, r1, r2⟩

/-- With a capacity of at least 2, from a cursor of at most `cap - 2` every
pass stores its byte and leaves the cursor at most `cap - 2`. -/
theorem stored_run (cap : Nat) (term : Byte) (hcap : 2 ≤ cap) (input : List Byte) :
    ∀ (polls : Nat → Poll) (s : FramerState), s.uartRxIndex ≤ cap - 2 →
      ∀ o ∈ handleUART cap term polls s input,
        o.stored = true ∧ o.state.uartRxIndex ≤ cap - 2 := by
  induction input with
  | nil => intro polls s _ o ho; simp [handleUART] at ho
  | cons d rest ih =>
    intro polls s hidx o ho
    have hst : s.uartRxIndex < cap - 1 := by omega
    have hstep : (feed cap term (polls 0) s d).stored = true ∧
        (feed cap term (polls 0) s d).state.uartRxIndex ≤ cap - 2 := by
      by_cases hc : d = term ∨ (s.uartRxIndex + 1) % UINT16_MOD ≥ cap - 1
      · rw [feed_store_complete cap term (polls 0) s d hst hc]
        exact ⟨rfl, Nat.zero_le _⟩
      · rw [feed_store_continue cap term (polls 0) s d hst hc]
        refine ⟨rfl, ?_⟩
        simp only []
        omega
    rw [handleUART_cons] at ho
    rcases List.mem_cons.mp ho with rfl | hmem
    · exact hstep
    · exact ih _ _ hstep.2 o hmem

/-- C1: for every capacity of at least 1, every terminator and every input
fed byte by byte from the empty state, after each pass of the loop of
`handleUART` the cursor `uartRxIndex` is below `UART_BUFFER_SIZE`, every
buffer index assigned during the pass (line 64 and line 72) is below
`UART_BUFFER_SIZE`, and the buffer still has `UART_BUFFER_SIZE` slots. -/
theorem cursor_and_writes_below_capacity (UART_BUFFER_SIZE : Nat) (UART_TERMINATOR : Byte)
    (polls : Nat → Poll) (input : List Byte) (hcap : 1 ≤ UART_BUFFER_SIZE) :
    ∀ o ∈ handleUART UART_BUFFER_SIZE UART_TERMINATOR polls (initState UART_BUFFER_SIZE) input,
      o.state.uartRxIndex < UART_BUFFER_SIZE ∧ (∀ w ∈ o.writes, w < UART_BUFFER_SIZE) ∧
        o.state.uartRxBuffer.length = UART_BUFFER_SIZE :=
  handleUART_bounds UART_BUFFER_SIZE UART_TERMINATOR hcap input polls (initState UART_BUFFER_SIZE)
    (by simp only [initState]; omega) (by simp [initState])

/-- Witness of C1 at capacity 4, terminator LF, on five bytes that force a
flush and then complete a frame by terminator. -/
theorem cursor_and_writes_below_capacity_witness :
    1 ≤ 4 ∧ ∀ o ∈ handleUART 4 LF (constPoll true true) (initState 4) [97, 98, 99, 13, 10],
      o.state.uartRxIndex < 4 ∧ (∀ w ∈ o.writes, w < 4) ∧ o.state.uartRxBuffer.length = 4 :=
  ⟨by decide,
    cursor_and_writes_below_capacity 4 LF (constPoll true true) [97, 98, 99, 13, 10] (by decide)⟩

/-- C3, as the code has it: for a capacity from 2 to 65536 (the range of the
16-bit cursor) and a terminator-free sequence of exactly capacity-1 bytes
fed from the empty state, exactly one frame is emitted, on the last byte
and none on a shorter prefix; its accumulated bytes are the whole sequence
and its content is the sequence without its trailing CR and LF bytes, which
is the whole sequence when the last byte is neither CR nor LF. -/
theorem forced_flush_single_frame (UART_BUFFER_SIZE : Nat) (UART_TERMINATOR : Byte)
    (polls : Nat → Poll) (input : List Byte)
    (hcap : 2 ≤ UART_BUFFER_SIZE) (h16 : UART_BUFFER_SIZE ≤ UINT16_MOD)
    (hlen : input.length = UART_BUFFER_SIZE - 1) (hterm : ∀ b ∈ input, b ≠ UART_TERMINATOR) :
    framesOf UART_BUFFER_SIZE UART_TERMINATOR polls (initState UART_BUFFER_SIZE) input =
        [{ raw := input, content := input.rdropWhile isCRLF, sequence := 1 }] ∧
      (∀ k, k < UART_BUFFER_SIZE - 1 →
        framesOf UART_BUFFER_SIZE UART_TERMINATOR polls (initState UART_BUFFER_SIZE)
          (input.take k) = []) ∧
      ((∀ hne : input ≠ [], isCRLF (input.getLast hne) = false) →
        framesOf UART_BUFFER_SIZE UART_TERMINATOR polls (initState UART_BUFFER_SIZE) input =
          [{ raw := input, content := input, sequence := 1 }]) := by
  have hmain : framesOf UART_BUFFER_SIZE UART_TERMINATOR polls (initState UART_BUFFER_SIZE) input =
      [{ raw := input, content := input.rdropWhile isCRLF, sequence := 1 }] := by
    rcases List.eq_nil_or_concat input with hnil | ⟨xs, d, hxs⟩
    · rw [hnil] at hlen; simp only [List.length_nil] at hlen; omega
    · rw [List.concat_eq_append] at hxs
      subst hxs
      simp only [List.length_append, List.length_singleton] at hlen
      exact (one_frame_run UART_BUFFER_SIZE UART_TERMINATOR polls xs d
        (fun b hb => hterm b (List.mem_append_left _ hb)) (by omega)
        (by simp only [UINT16_MOD] at h16 ⊢; omega) (Or.inr (by omega))).1
  refine ⟨hmain, ?_, ?_⟩
  · intro k hk
    have hq := quiet_run UART_BUFFER_SIZE UART_TERMINATOR (input.take k) polls
      (initState UART_BUFFER_SIZE) (fun b hb => hterm b (List.mem_of_mem_take hb))
      (by simp only [initState, List.length_take]; omega)
      (by simp only [initState, List.length_take, UINT16_MOD] at h16 ⊢; omega)
      (length_initState UART_BUFFER_SIZE)
    exact framesOf_eq_nil_of_trace _ _ _ _ _ hq.1
  · intro hlast
    rw [hmain]
    have : input.rdropWhile isCRLF = input := by
      rw [List.rdropWhile_eq_self_iff]
      intro hne
      rw [hlast hne]
      exact Bool.false_ne_true
    rw [this]

/-- Witness of C3 at capacity 4 on the three bytes `a\rb`: the hypotheses
hold there and the single frame holds the whole sequence. -/
theorem forced_flush_single_frame_witness :
    (2 ≤ 4 ∧ 4 ≤ UINT16_MOD ∧ ([97, CR, 98] : List Byte).length = 4 - 1 ∧
        ∀ b ∈ ([97, CR, 98] : List Byte), b ≠ LF) ∧
      framesOf 4 LF (constPoll true true) (initState 4) [97, CR, 98] =
        [{ raw := [97, CR, 98], content := [97, CR, 98], sequence := 1 }] :=
  ⟨⟨by decide, by simp only [UINT16_MOD]; omega, by decide, by simp [CR, LF]⟩,
    (forced_flush_single_frame 4 LF (constPoll true true) [97, CR, 98] (by decide)
      (by simp only [UINT16_MOD]; omega) (by decide) (by simp [CR, LF])).2.2 (fun _ => rfl)⟩

/-- C3 fails as stated.  At capacity 4 the terminator-free sequence `ab\r`
of 3 bytes gives a frame whose content is `ab`, not the whole sequence: the
forced-flush frame is stripped like any other.  At capacity 65537 the
terminator-free sequence of 65536 bytes gives no frame at all: the 16-bit
cursor wraps to 0 before it can reach capacity-1. -/
theorem forced_flush_counterexample :
    ((2 ≤ 4 ∧ ([97, 98, CR] : List Byte).length = 4 - 1 ∧
        ∀ b ∈ ([97, 98, CR] : List Byte), b ≠ LF) ∧
      (framesOf 4 LF (constPoll true true) (initState 4) [97, 98, CR]).map (fun f => f.content) =
        [[97, 98]] ∧
      (framesOf 4 LF (constPoll true true) (initState 4) [97, 98, CR]).map (fun f => f.content) ≠
        [[97, 98, CR]]) ∧
    ((2 ≤ 65537 ∧ (List.replicate 65536 (97 : Byte)).length = 65537 - 1 ∧
        ∀ b ∈ List.replicate 65536 (97 : Byte), b ≠ LF) ∧
      framesOf 65537 LF (constPoll true true) (initState 65537)
        (List.replicate 65536 (97 : Byte)) = []) := by
  refine ⟨⟨⟨by decide, by decide, by simp [CR, LF]⟩, by decide, by decide⟩,
    ⟨by omega, List.length_replicate _ _, ?_⟩, ?_⟩
  · intro b hb
    rw [List.eq_of_mem_replicate hb]
    decide
  · exact (wrap_run 65537 LF 97 (constPoll true true) 65535 rfl (by decide)
      (by simp only [UINT16_MOD]; omega)).1

/-- C10, as the code has it: for every capacity of at least 2 and every
input fed from the empty state, the cursor is at most capacity-2 before the
first pass and after every pass, so the guard of line 63 holds in every
pass and every byte is stored at the cursor.  When moreover the capacity is
at most 65536 (the range of the 16-bit cursor), the accumulated bytes of the
emitted frames (before stripping) followed by the bytes pending in the
buffer are exactly the input. -/
theorem every_byte_stored (UART_BUFFER_SIZE : Nat) (UART_TERMINATOR : Byte)
    (polls : Nat → Poll) (input : List Byte) (hcap : 2 ≤ UART_BUFFER_SIZE) :
    (initState UART_BUFFER_SIZE).uartRxIndex ≤ UART_BUFFER_SIZE - 2 ∧
      (∀ o ∈ handleUART UART_BUFFER_SIZE UART_TERMINATOR polls (initState UART_BUFFER_SIZE) input,
        o.stored = true ∧ o.state.uartRxIndex ≤ UART_BUFFER_SIZE - 2) ∧
      (UART_BUFFER_SIZE ≤ UINT16_MOD →
        ((framesOf UART_BUFFER_SIZE UART_TERMINATOR polls (initState UART_BUFFER_SIZE) input).map
              (fun f => f.raw)).flatten ++
            pending (finalState UART_BUFFER_SIZE UART_TERMINATOR polls
              (initState UART_BUFFER_SIZE) input) = input) := by
  have h0 : (initState UART_BUFFER_SIZE).uartRxIndex ≤ UART_BUFFER_SIZE - 2 := by
    simp only [initState]; omega
  refine ⟨h0, stored_run UART_BUFFER_SIZE UART_TERMINATOR hcap input polls
    (initState UART_BUFFER_SIZE) h0, ?_⟩
  intro h16
  have h := lossless_run UART_BUFFER_SIZE UART_TERMINATOR hcap h16 input polls
    (initState UART_BUFFER_SIZE) h0 (length_initState UART_BUFFER_SIZE)
  rw [pending_initState, List.nil_append] at h
  exact h.2

/-- Witness of C10 at capacity 4 on six bytes: one forced flush, one frame
by terminator, one byte left pending. -/
theorem every_byte_stored_witness :
    (2 ≤ 4 ∧ 4 ≤ UINT16_MOD) ∧
      (∀ o ∈ handleUART 4 LF (constPoll true false) (initState 4) [97, 98, 99, 100, LF, 101],
        o.stored = true ∧ o.state.uartRxIndex ≤ 4 - 2) ∧
      ((framesOf 4 LF (constPoll true false) (initState 4) [97, 98, 99, 100, LF, 101]).map
            (fun f => f.raw)).flatten ++
          pending (finalState 4 LF (constPoll true false) (initState 4)
            [97, 98, 99, 100, LF, 101]) = [97, 98, 99, 100, LF, 101] :=
  ⟨⟨by decide, by simp only [UINT16_MOD]; omega⟩,
    (every_byte_stored 4 LF (constPoll true false) [97, 98, 99, 100, LF, 101] (by decide)).2.1,
    (every_byte_stored 4 LF (constPoll true false) [97, 98, 99, 100, LF, 101] (by decide)).2.2
      (by simp only [UINT16_MOD]; omega)⟩

/-- C10 fails as stated.  At capacity 65537, after 65536 bytes without
terminator the 16-bit cursor has wrapped to 0: no frame was emitted and no
byte is pending, so the emitted and pending bytes are not the input. -/
theorem every_byte_stored_counterexample :
    2 ≤ 65537 ∧
      ((framesOf 65537 LF (constPoll true true) (initState 65537)
            (List.replicate 65536 (97 : Byte))).map (fun f => f.raw)).flatten ++
          pending (finalState 65537 LF (constPoll true true) (initState 65537)
            (List.replicate 65536 (97 : Byte))) ≠ List.replicate 65536 (97 : Byte) := by
  obtain ⟨h1, h2⟩ := wrap_run 65537 LF 97 (constPoll true true) 65535 rfl (by decide)
    (by simp only [UINT16_MOD]; omega)
  refine ⟨by omega, ?_⟩
  intro h
  have hl := congrArg List.length h
  rw [h1] at hl
  simp only [pending, h2, List.take_zero, List.map_nil, List.flatten_nil, List.append_nil,
    List.length_nil, List.length_replicate] at hl
  omega

/-- C8, as the code has it: for every terminator, every capacity and every
input fed from the empty state, the content of every emitted frame is its
accumulated bytes with all trailing CR and LF bytes removed, so its last
byte is neither CR nor LF; and when the terminator is CR or LF the content
does not contain the terminator byte. -/
theorem frame_content_stripped (UART_BUFFER_SIZE : Nat) (UART_TERMINATOR : Byte)
    (polls : Nat → Poll) (input : List Byte) :
    ∀ f ∈ framesOf UART_BUFFER_SIZE UART_TERMINATOR polls (initState UART_BUFFER_SIZE) input,
      f.content = f.raw.rdropWhile isCRLF ∧
        (∀ hne : f.content ≠ [],
          f.content.getLast hne ≠ CR ∧ f.content.getLast hne ≠ LF) ∧
        (UART_TERMINATOR = CR ∨ UART_TERMINATOR = LF → UART_TERMINATOR ∉ f.content) := by
  intro f hf
  obtain ⟨h1, h2⟩ := frames_stripped UART_BUFFER_SIZE UART_TERMINATOR input polls
    (initState UART_BUFFER_SIZE) (wellFormed_initState UART_BUFFER_SIZE)
    (by rw [pending_initState]; intro b hb; exact absurd hb (List.not_mem_nil b)) f hf
  refine ⟨h1, ?_, fun ht => h2 ((isCRLF_eq_true_iff _).mpr ht)⟩
  intro hne
  rw [← isCRLF_eq_false_iff]
  have hne2 : f.raw.rdropWhile isCRLF ≠ [] := by rw [← h1]; exact hne
  have hlast := List.rdropWhile_last_not isCRLF f.raw hne2
  have heq : f.content.getLast hne = (f.raw.rdropWhile isCRLF).getLast hne2 := by
    congr 1
  rw [heq]
  exact Bool.eq_false_iff.mpr hlast

/-- Witness of C8 with terminator LF at capacity 8: no frame of the input
`a\r\r\nb\n` contains LF. -/
theorem frame_content_stripped_witness :
    (LF = CR ∨ LF = LF) ∧
      ∀ f ∈ framesOf 8 LF (constPoll true true) (initState 8) [97, CR, CR, LF, 98, LF],
        LF ∉ f.content :=
  ⟨Or.inr rfl, fun f hf =>
    (frame_content_stripped 8 LF (constPoll true true) [97, CR, CR, LF, 98, LF] f hf).2.2
      (Or.inr rfl)⟩

/-- C8 fails as stated.  With terminator `;` (59) at capacity 16 the input
`a;` gives one frame whose content is `a;`: the terminator byte is stored at
line 64 before the test of line 67 and only CR and LF are stripped. -/
theorem frame_content_stripped_counterexample :
    2 ≤ 16 ∧
      (framesOf 16 59 (constPoll true true) (initState 16) [97, 59]).map (fun f => f.content) =
        [[97, 59]] ∧
      ∃ f ∈ framesOf 16 59 (constPoll true true) (initState 16) [97, 59],
        (59 : Byte) ∈ f.content :=
  ⟨by decide, by decide, ⟨{ raw := [97, 59], content := [97, 59], sequence := 1 },
    by decide, by decide⟩⟩

/-- C4, as the code has it: when the terminator is CR or LF, for every
sequence of CR and LF bytes that does not contain the terminator and is
shorter than capacity-2, feeding the sequence followed by one terminator
byte from the empty state yields exactly one frame, with empty content and
sequence number 1. -/
theorem crlf_only_frame_is_empty (UART_BUFFER_SIZE : Nat) (UART_TERMINATOR : Byte)
    (polls : Nat → Poll) (input : List Byte)
    (hterm : UART_TERMINATOR = CR ∨ UART_TERMINATOR = LF)
    (hinput : ∀ b ∈ input, (b = CR ∨ b = LF) ∧ b ≠ UART_TERMINATOR)
    (hlen : input.length < UART_BUFFER_SIZE - 2) :
    (framesOf UART_BUFFER_SIZE UART_TERMINATOR polls (initState UART_BUFFER_SIZE)
        (input ++ [UART_TERMINATOR])).map (fun f => (f.content, f.sequence)) = [([], 1)] := by
  have hrun := crlf_run UART_BUFFER_SIZE UART_TERMINATOR input polls
    (initState UART_BUFFER_SIZE) 0 (wellFormed_initState UART_BUFFER_SIZE)
    (by simp only [initState]; omega)
    (by rw [pending_initState]; intro b hb; exact absurd hb (List.not_mem_nil b))
    (fun b hb => ⟨(isCRLF_eq_true_iff b).mpr (hinput b hb).1, (hinput b hb).2⟩) (by omega)
  obtain ⟨r1, r2, r3, r4⟩ := hrun
  obtain ⟨_, acc, hacc, hcase⟩ := feed_spec UART_BUFFER_SIZE UART_TERMINATOR
    (polls (0 + input.length))
    (finalState UART_BUFFER_SIZE UART_TERMINATOR polls (initState UART_BUFFER_SIZE) input)
    UART_TERMINATOR r2
  rw [framesOf_append, r1, List.nil_append, framesOf_singleton]
  rcases hcase with ⟨_, hd, _, _⟩ | ⟨hsome, _, _⟩
  · exact absurd rfl hd
  · rw [hsome, r4]
    have hall : ∀ b ∈ acc, isCRLF b = true := by
      intro b hb
      rcases hacc with rfl | hpre
      · rcases List.mem_append.mp hb with h | h
        · exact r3 b h
        · rw [List.mem_singleton] at h; rw [h]; exact (isCRLF_eq_true_iff _).mpr hterm
      · exact r3 b (hpre.mem hb)
    have hnil : acc.rdropWhile isCRLF = [] := List.rdropWhile_eq_nil_iff.mpr hall
    rw [hnil]
    rfl

/-- Witness of C4 with terminator LF at capacity 8 on the sequence of three
CR bytes. -/
theorem crlf_only_frame_is_empty_witness :
    ((LF = CR ∨ LF = LF) ∧ (∀ b ∈ ([CR, CR, CR] : List Byte), (b = CR ∨ b = LF) ∧ b ≠ LF) ∧
        ([CR, CR, CR] : List Byte).length < 8 - 2) ∧
      (framesOf 8 LF (constPoll true true) (initState 8)
        ([CR, CR, CR] ++ [LF])).map (fun f => (f.content, f.sequence)) = [([], 1)] :=
  ⟨⟨Or.inr rfl, by simp [CR, LF], by decide⟩,
    crlf_only_frame_is_empty 8 LF (constPoll true true) [CR, CR, CR] (Or.inr rfl)
      (by simp [CR, LF]) (by decide)⟩

/-- C4 fails as stated.  With terminator `;` (59) at capacity 8 the sequence
CR followed by the terminator gives one frame whose content is CR and `;`,
not the empty string: the stored terminator byte stops the strip loop.  With
terminator LF at capacity 8 the sequence CR LF followed by the terminator
gives two frames: the LF of the sequence is itself a terminator. -/
theorem crlf_only_frame_counterexample :
    ((([CR] : List Byte) ≠ [] ∧ ([CR] : List Byte).length < 8 - 2) ∧
      (framesOf 8 59 (constPoll true true) (initState 8) ([CR] ++ [59])).map
        (fun f => f.content) = [[CR, 59]]) ∧
    ((([CR, LF] : List Byte) ≠ [] ∧ ([CR, LF] : List Byte).length < 8 - 2) ∧
      (framesOf 8 LF (constPoll true true) (initState 8) ([CR, LF] ++ [LF])).map
        (fun f => f.content) = [[], []]) :=
  ⟨⟨⟨by decide, by decide⟩, by decide⟩, ⟨⟨by decide, by decide⟩, by decide⟩⟩

/-- C2, as the code has it: with terminator LF, so that the LF closing
`hello\r\n` is the terminator, and a capacity of at least 10, feeding
`hello\r\n` from the empty state yields exactly one frame, with content
`hello`.  More generally, for every payload without CR or LF byte whose
length plus 2 is below the capacity and below 65536 (no forced flush, no
wrap of the 16-bit cursor), feeding the payload followed by CR LF yields
exactly one frame whose content is the payload. -/
theorem line_single_frame (UART_BUFFER_SIZE : Nat) (polls : Nat → Poll) :
    (10 ≤ UART_BUFFER_SIZE →
      framesOf UART_BUFFER_SIZE LF polls (initState UART_BUFFER_SIZE) (hello ++ [CR, LF]) =
        [{ raw := hello ++ [CR, LF], content := hello, sequence := 1 }]) ∧
    (∀ payload : List Byte, (∀ b ∈ payload, b ≠ CR ∧ b ≠ LF) →
      payload.length + 2 < UART_BUFFER_SIZE → payload.length + 2 < UINT16_MOD →
      framesOf UART_BUFFER_SIZE LF polls (initState UART_BUFFER_SIZE) (payload ++ [CR, LF]) =
        [{ raw := payload ++ [CR, LF], content := payload, sequence := 1 }]) := by
  have hgen : ∀ payload : List Byte, (∀ b ∈ payload, b ≠ CR ∧ b ≠ LF) →
      payload.length + 2 < UART_BUFFER_SIZE → payload.length + 2 < UINT16_MOD →
      framesOf UART_BUFFER_SIZE LF polls (initState UART_BUFFER_SIZE) (payload ++ [CR, LF]) =
        [{ raw := payload ++ [CR, LF], content := payload, sequence := 1 }] := by
    intro payload hp hroom h16
    have hrun := one_frame_run UART_BUFFER_SIZE LF polls (payload ++ [CR]) LF
      (by
        intro b hb
        rcases List.mem_append.mp hb with h | h
        · exact (hp b h).2
        · rw [List.mem_singleton] at h; rw [h]; decide)
      (by simp only [List.length_append, List.length_singleton]; omega)
      (by simp only [List.length_append, List.length_singleton]; omega)
      (Or.inl rfl)
    have hstrip : (payload ++ [CR] ++ [LF]).rdropWhile isCRLF = payload := by
      rw [List.rdropWhile_concat_pos _ _ _ (by decide), List.rdropWhile_concat_pos _ _ _ (by decide),
        List.rdropWhile_eq_self_iff]
      intro hne
      have := hp _ (List.getLast_mem hne)
      rw [Bool.not_eq_true, isCRLF_eq_false_iff]
      exact this
    have h := hrun.1
    rw [hstrip, List.append_assoc] at h
    exact h
  refine ⟨fun hcap => hgen hello (by simp [hello, CR, LF]) ?_ ?_, hgen⟩
  · simp only [hello, List.length_cons, List.length_nil]; omega
  · simp only [hello, List.length_cons, List.length_nil, UINT16_MOD]; omega

/-- Witness of C2 at capacity 10: the line `hello\r\n`, and the payload
`ab` followed by CR LF. -/
theorem line_single_frame_witness :
    (10 ≤ 10 ∧ (∀ b ∈ ([97, 98] : List Byte), b ≠ CR ∧ b ≠ LF) ∧
        ([97, 98] : List Byte).length + 2 < 10 ∧ ([97, 98] : List Byte).length + 2 < UINT16_MOD) ∧
      framesOf 10 LF (constPoll true true) (initState 10) (hello ++ [CR, LF]) =
        [{ raw := hello ++ [CR, LF], content := hello, sequence := 1 }] ∧
      framesOf 10 LF (constPoll true true) (initState 10) ([97, 98] ++ [CR, LF]) =
        [{ raw := [97, 98] ++ [CR, LF], content := [97, 98], sequence := 1 }] :=
  ⟨⟨by decide, by simp [CR, LF], by decide, by simp only [UINT16_MOD, List.length_cons, List.length_nil]; omega⟩,
    (line_single_frame 10 (constPoll true true)).1 (by decide),
    (line_single_frame 10 (constPoll true true)).2 [97, 98] (by simp [CR, LF]) (by decide)
      (by simp only [UINT16_MOD, List.length_cons, List.length_nil]; omega)⟩

/-- C2 fails as stated.  With terminator LF at capacity 16 the bytes of
`hello\r\n` followed by the terminator give two frames, `hello` and an
empty one: the LF of the line is already a terminator.  With terminator `;`
(59) at capacity 16 they give one frame whose content is `hello\r\n;`: the
terminator byte is stored and stops the strip loop, so nothing is stripped. -/
theorem line_single_frame_counterexample :
    (10 ≤ 16 ∧
      (framesOf 16 LF (constPoll true true) (initState 16) (hello ++ [CR, LF] ++ [LF])).map
        (fun f => f.content) = [hello, []]) ∧
    (10 ≤ 16 ∧
      (framesOf 16 59 (constPoll true true) (initState 16) (hello ++ [CR, LF] ++ [59])).map
        (fun f => f.content) = [hello ++ [CR, LF, 59]]) :=
  ⟨⟨by decide, by decide⟩, ⟨by decide, by decide⟩⟩

/-- C5, as the code has it: for every input fed from the empty state, the
sequence numbers of the successive frames are 1, 2, 3, ... reduced modulo
`2^32` (each is the previous one plus 1 modulo `2^32`), and the counter ends
at the number of frames modulo `2^32`.  As long as fewer than `2^32` frames
have completed they are exactly 1, 2, ..., n: strictly increasing, hence
never reused.  A pass that completes no frame leaves the counter unchanged;
a pass that completes one increments it once and the frame carries the new
value. -/
theorem sequence_numbers_count_up (UART_BUFFER_SIZE : Nat) (UART_TERMINATOR : Byte)
    (polls : Nat → Poll) (input : List Byte) :
    (framesOf UART_BUFFER_SIZE UART_TERMINATOR polls (initState UART_BUFFER_SIZE) input).map
          (fun f => f.sequence) =
        (List.range' 1
          (framesOf UART_BUFFER_SIZE UART_TERMINATOR polls (initState UART_BUFFER_SIZE)
            input).length).map (fun k => k % UINT32_MOD) ∧
      (finalState UART_BUFFER_SIZE UART_TERMINATOR polls (initState UART_BUFFER_SIZE)
          input).messageCounter =
        (framesOf UART_BUFFER_SIZE UART_TERMINATOR polls (initState UART_BUFFER_SIZE)
          input).length % UINT32_MOD ∧
      ((framesOf UART_BUFFER_SIZE UART_TERMINATOR polls (initState UART_BUFFER_SIZE)
          input).length < UINT32_MOD →
        (framesOf UART_BUFFER_SIZE UART_TERMINATOR polls (initState UART_BUFFER_SIZE) input).map
            (fun f => f.sequence) =
          List.range' 1
            (framesOf UART_BUFFER_SIZE UART_TERMINATOR polls (initState UART_BUFFER_SIZE)
              input).length ∧
        ((framesOf UART_BUFFER_SIZE UART_TERMINATOR polls (initState UART_BUFFER_SIZE) input).map
            (fun f => f.sequence)).Pairwise (fun a b => a < b)) ∧
      (∀ (p : Poll) (s : FramerState) (d : Byte),
        ((feed UART_BUFFER_SIZE UART_TERMINATOR p s d).frame = none →
          (feed UART_BUFFER_SIZE UART_TERMINATOR p s d).state.messageCounter =
            s.messageCounter) ∧
        (∀ f, (feed UART_BUFFER_SIZE UART_TERMINATOR p s d).frame = some f →
          f.sequence = (s.messageCounter + 1) % UINT32_MOD ∧
          (feed UART_BUFFER_SIZE UART_TERMINATOR p s d).state.messageCounter = f.sequence)) := by
  obtain ⟨h1, h2⟩ := counters_run UART_BUFFER_SIZE UART_TERMINATOR input polls
    (initState UART_BUFFER_SIZE)
  have hlt := counter_lt_run UART_BUFFER_SIZE UART_TERMINATOR input polls
    (initState UART_BUFFER_SIZE) (by simp only [initState, UINT32_MOD]; omega)
  have hseqs : (framesOf UART_BUFFER_SIZE UART_TERMINATOR polls (initState UART_BUFFER_SIZE)
      input).map (fun f => f.sequence) =
      (List.range' 1 (framesOf UART_BUFFER_SIZE UART_TERMINATOR polls
        (initState UART_BUFFER_SIZE) input).length).map (fun k => k % UINT32_MOD) := by
    rw [h1]
    apply List.map_congr_left
    intro k _
    simp only [initState, Nat.zero_add]
  refine ⟨hseqs, ?_, ?_, ?_⟩
  · rw [Nat.mod_eq_of_lt hlt] at h2
    rw [h2]
    simp only [initState, Nat.zero_add]
  · intro hn
    have heq : (framesOf UART_BUFFER_SIZE UART_TERMINATOR polls (initState UART_BUFFER_SIZE)
        input).map (fun f => f.sequence) =
        List.range' 1 (framesOf UART_BUFFER_SIZE UART_TERMINATOR polls
          (initState UART_BUFFER_SIZE) input).length := by
      rw [hseqs]
      conv_rhs => rw [← List.map_id (List.range' 1 _)]
      apply List.map_congr_left
      intro k hk
      rw [List.mem_range'_1] at hk
      simp only [id]
      exact Nat.mod_eq_of_lt (by omega)
    refine ⟨heq, ?_⟩
    rw [heq]
    exact List.pairwise_lt_range' 1 _
  · intro p s d
    rcases feed_counter UART_BUFFER_SIZE UART_TERMINATOR p s d with
      ⟨hnone, hctr⟩ | ⟨f, hsome, hseq, hctr⟩
    · refine ⟨fun _ => hctr, fun f hf => ?_⟩
      rw [hnone] at hf
      exact absurd hf (by simp)
    · refine ⟨fun hnone => ?_, fun g hg => ?_⟩
      · rw [hsome] at hnone
        exact absurd hnone (by simp)
      · rw [hsome] at hg
        have : f = g := Option.some.inj hg
        subst this
        exact ⟨hseq, by rw [hctr, hseq]⟩

/-- Witness of C5 at capacity 4 with terminator LF: the input `ab\ncdef\n`
completes three frames, numbered 1, 2, 3. -/
theorem sequence_numbers_count_up_witness :
    (framesOf 4 LF (constPoll false false) (initState 4)
        [97, 98, LF, 99, 100, 101, 102, LF]).length < UINT32_MOD ∧
      (framesOf 4 LF (constPoll false false) (initState 4)
          [97, 98, LF, 99, 100, 101, 102, LF]).map (fun f => f.sequence) =
        List.range' 1 (framesOf 4 LF (constPoll false false) (initState 4)
          [97, 98, LF, 99, 100, 101, 102, LF]).length ∧
      ((framesOf 4 LF (constPoll false false) (initState 4)
          [97, 98, LF, 99, 100, 101, 102, LF]).map (fun f => f.sequence)).Pairwise
        (fun a b => a < b) :=
  ⟨by decide,
    (sequence_numbers_count_up 4 LF (constPoll false false)
      [97, 98, LF, 99, 100, 101, 102, LF]).2.2.1 (by decide)⟩

/-- C5 fails as stated.  At capacity 8 with terminator LF, among the frames
of a run of `2^32 + 1` terminator bytes the frame at position `2^32 - 2`
carries 4294967295 and the next one carries 0, which is not greater; the
frames at positions 0 and `2^32` both carry 1, a reuse. -/
theorem sequence_numbers_counterexample :
    ((framesOf 8 LF (constPoll true true) (initState 8)
        (List.replicate 4294967297 LF)).map (fun f => f.sequence))[4294967294]? =
        some 4294967295 ∧
    ((framesOf 8 LF (constPoll true true) (initState 8)
        (List.replicate 4294967297 LF)).map (fun f => f.sequence))[4294967295]? = some 0 ∧
    ((framesOf 8 LF (constPoll true true) (initState 8)
        (List.replicate 4294967297 LF)).map (fun f => f.sequence))[0]? = some 1 ∧
    ((framesOf 8 LF (constPoll true true) (initState 8)
        (List.replicate 4294967297 LF)).map (fun f => f.sequence))[4294967296]? = some 1 := by
  have hlen := terminators_frames_length 8 LF 4294967297 (constPoll true true) (initState 8)
  refine ⟨?_, ?_, ?_, ?_⟩
  · exact sequence_at 8 LF (constPoll true true) (initState 8) _ 4294967294
      (by rw [hlen]; omega)
  · exact sequence_at 8 LF (constPoll true true) (initState 8) _ 4294967295
      (by rw [hlen]; omega)
  · exact sequence_at 8 LF (constPoll true true) (initState 8) _ 0 (by rw [hlen]; omega)
  · exact sequence_at 8 LF (constPoll true true) (initState 8) _ 4294967296
      (by rw [hlen]; omega)

/-- C6: for every sequence of calls of `loop` whose clock readings are
32-bit values that never decrease, starting with `lastMqttReconnect = 0`,
any two connect attempts, consecutive ones in particular, are made at
recorded clock readings at least `MQTT_RECONNECT_DELAY` apart, whatever the
status polls answer and however often `loop` is called.  The time of an
attempt is stored in `lastMqttReconnect` before the call, so it is recorded
whether the attempt succeeds or fails. -/
theorem reconnect_rate_limited (MQTT_RECONNECT_DELAY : Nat) (envs : List TickEnv)
    (hmono : (readings envs).Pairwise (fun a b => a ≤ b))
    (h32 : ∀ r ∈ readings envs, r < UINT32_MOD) :
    (attemptsOf MQTT_RECONNECT_DELAY 0 envs).Pairwise
        (fun a b => a.time + MQTT_RECONNECT_DELAY ≤ b.time) ∧
      (∀ (last : Nat) (env : TickEnv) (a : ConnectAttempt),
        (loop MQTT_RECONNECT_DELAY last env).2 = some a →
          (loop MQTT_RECONNECT_DELAY last env).1 = a.time ∧
          (loop MQTT_RECONNECT_DELAY last { env with connectOk := true }).1 = a.time ∧
          (loop MQTT_RECONNECT_DELAY last { env with connectOk := false }).1 = a.time) := by
  refine ⟨(attempts_spaced MQTT_RECONNECT_DELAY envs 0 (by simp only [UINT32_MOD]; omega)
    (fun r _ => Nat.zero_le r) hmono h32).2, ?_⟩
  intro last env a ha
  have hindep : ∀ b : Bool, (loop MQTT_RECONNECT_DELAY last { env with connectOk := b }).1 =
      (loop MQTT_RECONNECT_DELAY last env).1 := by
    intro b
    simp only [loop, reconnectMQTT]
    split_ifs <;> rfl
  rw [hindep true, hindep false]
  rcases loop_cases MQTT_RECONNECT_DELAY last env with h | ⟨_, h | h⟩
  · rw [h] at ha; exact absurd ha (by simp)
  · rw [h] at ha; exact absurd ha (by simp)
  · rw [h] at ha ⊢
    simp only [Option.some.injEq] at ha
    subst ha
    exact ⟨rfl, rfl, rfl⟩

/-- Witness of C6 with a delay of 5000 ms on three calls of `loop`, at
5000 ms, 2 ms later and at 10001 ms: the readings never decrease and the
attempts, made in the first and the third call, are 5000 ms apart. -/
theorem reconnect_rate_limited_witness :
    ((readings
          [{ wifiConnected := true, mqttConnected := false, millisCheck := 5000,
             millisRecord := 5001, wifiStillConnected := true, connectOk := false },
           { wifiConnected := true, mqttConnected := false, millisCheck := 5002,
             millisRecord := 5003, wifiStillConnected := true, connectOk := false },
           { wifiConnected := true, mqttConnected := false, millisCheck := 10001,
             millisRecord := 10002, wifiStillConnected := true, connectOk := true }]).Pairwise
        (fun a b => a ≤ b) ∧
      ∀ r ∈ readings
          [{ wifiConnected := true, mqttConnected := false, millisCheck := 5000,
             millisRecord := 5001, wifiStillConnected := true, connectOk := false },
           { wifiConnected := true, mqttConnected := false, millisCheck := 5002,
             millisRecord := 5003, wifiStillConnected := true, connectOk := false },
           { wifiConnected := true, mqttConnected := false, millisCheck := 10001,
             millisRecord := 10002, wifiStillConnected := true, connectOk := true }],
        r < UINT32_MOD) ∧
      (attemptsOf 5000 0
          [{ wifiConnected := true, mqttConnected := false, millisCheck := 5000,
             millisRecord := 5001, wifiStillConnected := true, connectOk := false },
           { wifiConnected := true, mqttConnected := false, millisCheck := 5002,
             millisRecord := 5003, wifiStillConnected := true, connectOk := false },
           { wifiConnected := true, mqttConnected := false, millisCheck := 10001,
             millisRecord := 10002, wifiStillConnected := true, connectOk := true }]).Pairwise
        (fun a b => a.time + 5000 ≤ b.time) :=
  ⟨⟨by simp [readings], by simp [readings, UINT32_MOD]⟩,
    (reconnect_rate_limited 5000 _ (by simp [readings]) (by simp [readings, UINT32_MOD])).1⟩

/-- C7, as the code has it: in every pass that completes a frame, exactly
one `publish` call is made if both polls of line 86 answer yes, the
transport poll `WiFi.status() == WL_CONNECTED` and the session poll
`mqttClient.connected()`, and none otherwise; the call carries the sequence
number of that frame.  A pass that completes no frame publishes nothing. -/
theorem publish_iff_both_polls (UART_BUFFER_SIZE : Nat) (UART_TERMINATOR : Byte) (poll : Poll)
    (s : FramerState) (data : Byte) :
    (∀ f, (feed UART_BUFFER_SIZE UART_TERMINATOR poll s data).frame = some f →
        ((feed UART_BUFFER_SIZE UART_TERMINATOR poll s data).published.length = 1 ↔
          (poll.wifiConnected = true ∧ poll.mqttConnected = true)) ∧
        (feed UART_BUFFER_SIZE UART_TERMINATOR poll s data).published.length ≤ 1 ∧
        (∀ e ∈ (feed UART_BUFFER_SIZE UART_TERMINATOR poll s data).published,
          e.sequence = f.sequence)) ∧
      ((feed UART_BUFFER_SIZE UART_TERMINATOR poll s data).frame = none →
        (feed UART_BUFFER_SIZE UART_TERMINATOR poll s data).published = []) := by
  obtain ⟨h1, h2⟩ := feed_published UART_BUFFER_SIZE UART_TERMINATOR poll s data
  refine ⟨fun f hf => ?_, h1⟩
  rw [h2 f hf]
  by_cases hb : (poll.wifiConnected && poll.mqttConnected) = true
  · rw [if_pos hb]
    rw [Bool.and_eq_true] at hb
    simp [hb]
  · rw [if_neg hb]
    rw [Bool.and_eq_true] at hb
    simp [hb]

/-- Witness of C7: at capacity 8 with terminator LF, the terminator byte fed
to the empty state completes a frame, and with both polls answering yes one
`publish` call is made. -/
theorem publish_iff_both_polls_witness :
    (feed 8 LF { wifiConnected := true, mqttConnected := true } (initState 8) LF).frame =
        some { raw := [LF], content := [], sequence := 1 } ∧
      (feed 8 LF { wifiConnected := true, mqttConnected := true } (initState 8)
        LF).published.length = 1 :=
  ⟨by decide,
    ((publish_iff_both_polls 8 LF { wifiConnected := true, mqttConnected := true } (initState 8)
      LF).1 { raw := [LF], content := [], sequence := 1 } (by decide)).1.mpr ⟨rfl, rfl⟩⟩

/-- C7 fails as stated.  At capacity 8 with terminator LF, a frame completes
while the session poll would answer yes and the transport poll answers no:
no `publish` call is made, because line 86 also tests `WiFi.status()`. -/
theorem publish_counterexample :
    (feed 8 LF { wifiConnected := false, mqttConnected := true } (initState 8) LF).frame =
        some { raw := [LF], content := [], sequence := 1 } ∧
      (feed 8 LF { wifiConnected := false, mqttConnected := true } (initState 8)
        LF).published = [] :=
  ⟨by decide, by decide⟩

/-- C9: for every input, every framer state and any two assignments of poll
answers, `handleUART` produces the same frames (contents and sequence
numbers) and ends in the same state (buffer, cursor and counter).  The polls
decide only the `publish` calls: the `k`-th pass publishes its own frame when
both polls of that pass answer yes and nothing otherwise, so a frame completed
while disconnected is published by no pass; and since the state kept for later
calls is the same, what a later call publishes does not depend on it either. -/
theorem framing_independent_of_connectivity (UART_BUFFER_SIZE : Nat) (UART_TERMINATOR : Byte)
    (polls1 polls2 : Nat → Poll) (s : FramerState) (input : List Byte) :
    framesOf UART_BUFFER_SIZE UART_TERMINATOR polls1 s input =
        framesOf UART_BUFFER_SIZE UART_TERMINATOR polls2 s input ∧
      finalState UART_BUFFER_SIZE UART_TERMINATOR polls1 s input =
        finalState UART_BUFFER_SIZE UART_TERMINATOR polls2 s input ∧
      (∀ (k : Nat) (o : FeedOut),
        (handleUART UART_BUFFER_SIZE UART_TERMINATOR polls1 s input)[k]? = some o →
          (o.frame = none → o.published = []) ∧
          (∀ f, o.frame = some f →
            o.published =
              if (polls1 k).wifiConnected && (polls1 k).mqttConnected then
                [{ message := cstr o.state.uartRxBuffer, sequence := f.sequence }]
              else [])) ∧
      (∀ (polls3 : Nat → Poll) (later : List Byte),
        publishedOf UART_BUFFER_SIZE UART_TERMINATOR polls3
            (finalState UART_BUFFER_SIZE UART_TERMINATOR polls1 s input) later =
          publishedOf UART_BUFFER_SIZE UART_TERMINATOR polls3
            (finalState UART_BUFFER_SIZE UART_TERMINATOR polls2 s input) later) := by
  obtain ⟨h1, h2⟩ := run_poll_independent UART_BUFFER_SIZE UART_TERMINATOR input polls1 polls2 s
  refine ⟨h1, h2, trace_published UART_BUFFER_SIZE UART_TERMINATOR input polls1 s, ?_⟩
  intro polls3 later
  rw [h2]

/-- Witness of C9 at capacity 8 with terminator LF: the frame of the line
`a\n` completes in the second pass; with the polls answering no, that pass
publishes nothing. -/
theorem framing_independent_of_connectivity_witness :
    (handleUART 8 LF (constPoll false false) (initState 8) [97, LF])[1]? =
        some (feed 8 LF { wifiConnected := false, mqttConnected := false }
          (feed 8 LF { wifiConnected := false, mqttConnected := false } (initState 8) 97).state
          LF) ∧
      (feed 8 LF { wifiConnected := false, mqttConnected := false }
        (feed 8 LF { wifiConnected := false, mqttConnected := false } (initState 8) 97).state
        LF).published = [] :=
  ⟨rfl,
    ((framing_independent_of_connectivity 8 LF (constPoll false false) (constPoll true true)
      (initState 8) [97, LF]).2.2.1 1 _ rfl).2
        { raw := [97, LF], content := [97], sequence := 1 } (by decide)⟩

end Bridge
